import Mathlib

/-!
Verification of the video-asset reference migration script
(replaceLocalVideoAssets.ts) against its design specification.

The script is a gather-then-apply batch job over JSON-like documents:
  - findAssetPaths (Reference Locator): a stack-based depth-first walk
    returning GROQ-like path strings of fields named "asset" holding a
    reference (optionally filtered to one target id);
  - parseMediaReference / getMediaLibraryAssetInfo (Reference Resolver);
  - generatePatchOperations (Patch Planner);
  - applyPatches (Patch Executor);
  - summary statistics computed in main.

Documents are modelled by the mutual inductive SValue below (JSON trees:
null, booleans, numbers, strings, arrays, string-keyed objects).  JS
numbers are modelled as integers; none of the migration logic inspects
numeric values beyond truthiness.  All definitions are computable and
all recursions structural except the stack loop goFrames, which mirrors
the while-loop of the source verbatim and is proved equal to a
structurally recursive depth-first visit.

A thrown JS TypeError is modelled by an Option-valued result (none = the
call throws).  In findAssetPaths a throw happens exactly when a filter
is supplied and an "asset"-keyed value has type tag "reference" and a
non-string, non-nullish _ref (the source evaluates v._ref?.replace,
which throws on numbers, booleans, arrays and objects).
-/

mutual
/-- A JSON-like document value as manipulated by the script. -/
inductive SValue where
  | null : SValue
  | bool (b : Bool) : SValue
  | num (n : Int) : SValue
  | str (s : String) : SValue
  | arr (xs : SArr) : SValue
  | obj (fs : SObj) : SValue
deriving DecidableEq, Repr

/-- An array of document values. -/
inductive SArr where
  | nil : SArr
  | cons (x : SValue) (xs : SArr) : SArr
deriving DecidableEq, Repr

/-- An object: an ordered sequence of string-keyed fields.  JS objects
cannot contain the same key twice; the model permits it but every
document taken from the store satisfies key uniqueness. -/
inductive SObj where
  | nil : SObj
  | cons (k : String) (v : SValue) (fs : SObj) : SObj
deriving DecidableEq, Repr
end

/-- JS property access: the value of the first field named key. -/
def getField : SObj → String → Option SValue
  | .nil, _ => none
  | .cons k v fs, key => if k = key then some v else getField fs key

/-- JS truthiness of a value. -/
def jsTruthy : SValue → Bool
  | .null => false
  | .bool b => b
  | .num n => n != 0
  | .str s => s != ""
  | .arr _ => true
  | .obj _ => true

mutual
/-- JS String(v) coercion, as used by template literals.  Arrays join
their elements with commas (null elements print as empty), objects
print as "[object Object]". -/
def jsToString : SValue → String
  | .null => "null"
  | .bool b => if b then "true" else "false"
  | .num n => toString n
  | .str s => s
  | .arr xs => jsToStringArr xs
  | .obj _ => "[object Object]"

/-- How one array element prints inside a join: null prints empty,
anything else prints as String(v). -/
def jsElemStr : SValue → String
  | .null => ""
  | .bool b => if b then "true" else "false"
  | .num n => toString n
  | .str s => s
  | .arr xs => jsToStringArr xs
  | .obj _ => "[object Object]"
  termination_by structural v => v

/-- JS Array.prototype.toString: elements joined with commas. -/
def jsToStringArr : SArr → String
  | .nil => ""
  | .cons x .nil => jsElemStr x
  | .cons x (.cons y ys) => jsElemStr x ++ "," ++ jsToStringArr (.cons y ys)
  termination_by structural xs => xs
end

/-- The identity key of an array item, when present and truthy, coerced
to a string exactly as the template literal of the source does
(item && typeof item === "object" && item._key). -/
def keyOf : SValue → Option String
  | .obj fs =>
    match getField fs "_key" with
    | some v => if jsTruthy v then some (jsToString v) else none
    | none => none
  | _ => none

/-- The regex replace of the source, _ref.replace applied with the
pattern anchored at the start: strips one leading "drafts." marker. -/
def stripDrafts (s : String) : String :=
  if "drafts.".data.isPrefixOf s.data then ⟨s.data.drop 7⟩ else s

/-- The isRefTo predicate of findAssetPaths.  Result none models the
TypeError thrown by v._ref?.replace when _ref is neither a string nor
nullish; an empty filter string is falsy in JS and disables the target
check, like passing no filter. -/
def isRefTo (filt : Option String) (v : SValue) : Option Bool :=
  match v with
  | .obj fs =>
    match getField fs "_type" with
    | some (.str "reference") =>
      match filt with
      | none => some true
      | some t =>
        if t = "" then some true
        else
          match getField fs "_ref" with
          | none => some false
          | some .null => some false
          | some (.str s) => some (stripDrafts s = t)
          | some _ => none
    | _ => some false
  | _ => some false

/-- One segment of a structural path. -/
inductive Seg where
  | field (k : String) : Seg
  | idx (i : Nat) : Seg
  | keyed (k : String) : Seg
deriving DecidableEq, Repr

/-- The path segment pushed for an array item: identity-based when the
item has a truthy _key, positional otherwise. -/
def itemSeg (i : Nat) (x : SValue) : Seg :=
  match keyOf x with
  | some k => .keyed k
  | none => .idx i

/-- The string form of one path segment as stored by the source (array
segments are pre-rendered, field segments are the raw key). -/
def Seg.render : Seg → String
  | .field k => k
  | .idx i => "[" ++ toString i ++ "]"
  | .keyed k => "[_key==\"" ++ k ++ "\"]"

/-- Whether a rendered segment starts with an opening bracket, the test
the source uses to decide whether to prepend a dot. -/
def startsBracket (s : String) : Bool :=
  match s.data with
  | [] => false
  | c :: _ => c = '['

/-- Serialization of a segment path into the GROQ-like string of the
source: p.map((seg, i) => seg.startsWith("[") ? seg : (i ? "." : "") +
seg).join(""). -/
def renderPathAux : Nat → List Seg → String
  | _, [] => ""
  | i, seg :: rest =>
    (if startsBracket seg.render then seg.render
     else if i = 0 then seg.render else "." ++ seg.render) ++ renderPathAux (i + 1) rest

/-- Serialization of a whole segment path. -/
def renderPath (p : List Seg) : String := renderPathAux 0 p

/-- The hits contributed by the fields of one object during the stack
loop: every field named "asset" whose value passes isRefTo, with the
full path, in field order.  none propagates a TypeError. -/
def collectHits (filt : Option String) (path : List Seg) : SObj → Option (List (List Seg))
  | .nil => some []
  | .cons k v fs =>
    if k = "asset" then
      match isRefTo filt v with
      | none => none
      | some true =>
        match collectHits filt path fs with
        | none => none
        | some hs => some ((path ++ [Seg.field k]) :: hs)
      | some false => collectHits filt path fs
    else collectHits filt path fs

/-- A pending stack entry of the traversal: a value and the path at
which it sits. -/
abbrev Frame := SValue × List Seg

/-- The frames pushed for the items of an array.  The source pushes
items from the last index down to index 0, so they are popped in
forward order; this list is in pop order. -/
def frameChildrenArr (path : List Seg) : Nat → SArr → List Frame
  | _, .nil => []
  | i, .cons x xs => (x, path ++ [itemSeg i x]) :: frameChildrenArr path (i + 1) xs

/-- The frames pushed for the fields of an object, in field order.  The
source pushes them first-to-last, so they are popped in reverse order;
goFrames reverses this list when pushing. -/
def frameChildrenObj (path : List Seg) : SObj → List Frame
  | .nil => []
  | .cons k v fs => (v, path ++ [Seg.field k]) :: frameChildrenObj path fs

mutual
/-- Size of a value, the termination measure of the stack loop. -/
def sizeV : SValue → Nat
  | .null => 1
  | .bool _ => 1
  | .num _ => 1
  | .str _ => 1
  | .arr xs => 1 + sizeA xs
  | .obj fs => 1 + sizeO fs

/-- Total size of the items of an array. -/
def sizeA : SArr → Nat
  | .nil => 0
  | .cons x xs => sizeV x + sizeA xs

/-- Total size of the field values of an object. -/
def sizeO : SObj → Nat
  | .nil => 0
  | .cons _ v fs => sizeV v + sizeO fs
end

theorem sizeV_pos (v : SValue) : 1 ≤ sizeV v := by
  cases v <;> simp [sizeV]

/-- Total size of the values on the stack, the termination measure of
the stack loop. -/
def stackSize (frames : List Frame) : Nat :=
  (frames.map fun f => sizeV f.1).sum

theorem stackSize_append (a b : List Frame) :
    stackSize (a ++ b) = stackSize a + stackSize b := by
  simp [stackSize]

theorem stackSize_cons (f : Frame) (rest : List Frame) :
    stackSize (f :: rest) = sizeV f.1 + stackSize rest := by
  simp [stackSize]

theorem stackSize_reverse (a : List Frame) :
    stackSize a.reverse = stackSize a := by
  simp [stackSize, List.sum_reverse]

theorem stackSize_frameChildrenArr (path : List Seg) :
    ∀ (i : Nat) (xs : SArr), stackSize (frameChildrenArr path i xs) = sizeA xs
  | _, .nil => by simp [frameChildrenArr, stackSize, sizeA]
  | i, .cons x xs => by
    have h := stackSize_frameChildrenArr path (i + 1) xs
    simp only [frameChildrenArr, stackSize_cons] at *
    simp [sizeA, h]

theorem stackSize_frameChildrenObj (path : List Seg) :
    ∀ fs : SObj, stackSize (frameChildrenObj path fs) = sizeO fs
  | .nil => by simp [frameChildrenObj, stackSize, sizeO]
  | .cons k v fs => by
    have h := stackSize_frameChildrenObj path fs
    simp only [frameChildrenObj, stackSize_cons] at *
    simp [sizeO, h]

/-- The stack loop of findAssetPaths, transcribed frame by frame: pop a
frame; an array pushes its items (popped in forward order), an object
first emits the hits among its own fields in field order and then
pushes its field values (popped in reverse field order); scalars are
dropped.  none models a thrown TypeError. -/
def goFrames (filt : Option String) : List Frame → Option (List (List Seg))
  | [] => some []
  | (n, path) :: rest =>
    match n with
    | .arr xs => goFrames filt (frameChildrenArr path 0 xs ++ rest)
    | .obj fs =>
      match collectHits filt path fs with
      | none => none
      | some hs =>
        match goFrames filt ((frameChildrenObj path fs).reverse ++ rest) with
        | none => none
        | some r => some (hs ++ r)
    | .null => goFrames filt rest
    | .bool _ => goFrames filt rest
    | .num _ => goFrames filt rest
    | .str _ => goFrames filt rest
  termination_by frames => stackSize frames
  decreasing_by
  all_goals simp only [stackSize_append, stackSize_cons, stackSize_reverse,
    stackSize_frameChildrenArr, stackSize_frameChildrenObj, sizeV]
  all_goals omega

/-- The Reference Locator at the level of segment paths: the stack loop
started on the whole document with the empty path. -/
def findAssetSegPaths (doc : SValue) (onlyRefTo : Option String) : Option (List (List Seg)) :=
  goFrames onlyRefTo [(doc, [])]

/-- findAssetPaths of the source: the GROQ-like path strings, in
emission order.  The source renders each segment at push time and joins
at emission; rendering the collected segment paths yields the same
strings. -/
def findAssetPaths (doc : SValue) (onlyRefTo : Option String) : Option (List String) :=
  (findAssetSegPaths doc onlyRefTo).map (·.map renderPath)

/-- The hits among the fields of one object, as paths relative to the
object (each is the single segment "asset"). -/
def hitsOf (filt : Option String) : SObj → Option (List (List Seg))
  | .nil => some []
  | .cons k v fs =>
    if k = "asset" then
      match isRefTo filt v with
      | none => none
      | some true =>
        match hitsOf filt fs with
        | none => none
        | some hs => some ([Seg.field k] :: hs)
      | some false => hitsOf filt fs
    else hitsOf filt fs

mutual
/-- Structurally recursive form of the traversal, emitting paths
relative to the visited value.  An object emits the hits among its own
fields in field order, then the results of its field subtrees in
reverse field order (the stack pops pushed fields last-first); an array
emits its item subtrees in forward order. -/
def visit (filt : Option String) : SValue → Option (List (List Seg))
  | .obj fs =>
    match hitsOf filt fs with
    | none => none
    | some hs =>
      match visitObjRev filt fs with
      | none => none
      | some deep => some (hs ++ deep)
  | .arr xs => visitArr filt 0 xs
  | .null => some []
  | .bool _ => some []
  | .num _ => some []
  | .str _ => some []

/-- Traversal of the items of an array, in forward order, i being the
position of the first item. -/
def visitArr (filt : Option String) (i : Nat) : SArr → Option (List (List Seg))
  | .nil => some []
  | .cons x xs =>
    match visit filt x with
    | none => none
    | some h =>
      match visitArr filt (i + 1) xs with
      | none => none
      | some t => some (h.map (itemSeg i x :: ·) ++ t)

/-- Traversal of the field subtrees of an object, in reverse field
order. -/
def visitObjRev (filt : Option String) : SObj → Option (List (List Seg))
  | .nil => some []
  | .cons k v fs =>
    match visitObjRev filt fs with
    | none => none
    | some t =>
      match visit filt v with
      | none => none
      | some h => some (t ++ h.map (Seg.field k :: ·))
end

/-- The stack interpreted through visit: each frame contributes the
relative results of its value, prefixed with the path of the frame. -/
def visitStack (filt : Option String) : List Frame → Option (List (List Seg))
  | [] => some []
  | (n, path) :: rest =>
    match visit filt n with
    | none => none
    | some h =>
      match visitStack filt rest with
      | none => none
      | some r => some (h.map (path ++ ·) ++ r)

theorem collectHits_eq_hitsOf (filt : Option String) (path : List Seg) :
    ∀ fs : SObj, collectHits filt path fs = (hitsOf filt fs).map (List.map (path ++ ·))
  | .nil => by simp [collectHits, hitsOf]
  | .cons k v fs => by
    have ih := collectHits_eq_hitsOf filt path fs
    by_cases hk : k = "asset"
    · simp only [collectHits, hitsOf, if_pos hk]
      cases isRefTo filt v with
      | none => simp
      | some b =>
        cases b with
        | true =>
          simp only [ih]
          cases hitsOf filt fs <;> simp
        | false => simpa using ih
    · simpa [collectHits, hitsOf, if_neg hk] using ih

theorem visitStack_frameChildrenArr (filt : Option String) (path : List Seg) :
    ∀ (i : Nat) (xs : SArr) (rest : List Frame),
      visitStack filt (frameChildrenArr path i xs ++ rest) =
        match visitArr filt i xs with
        | none => none
        | some h =>
          match visitStack filt rest with
          | none => none
          | some r => some (h.map (path ++ ·) ++ r)
  | i, .nil, rest => by
    simp only [frameChildrenArr, visitArr, List.nil_append]
    cases visitStack filt rest <;> simp
  | i, .cons x xs, rest => by
    have ih := visitStack_frameChildrenArr filt path (i + 1) xs rest
    simp only [frameChildrenArr, List.cons_append, visitStack, visitArr, List.append_eq]
    cases hx : visit filt x with
    | none => rfl
    | some h =>
      rw [ih]
      cases visitArr filt (i + 1) xs with
      | none => rfl
      | some t =>
        cases visitStack filt rest with
        | none => rfl
        | some r =>
          simp [List.map_map, List.map_append, Function.comp, List.append_assoc]

theorem visitStack_frameChildrenObjRev (filt : Option String) (path : List Seg) :
    ∀ (fs : SObj) (rest : List Frame),
      visitStack filt ((frameChildrenObj path fs).reverse ++ rest) =
        match visitObjRev filt fs with
        | none => none
        | some d =>
          match visitStack filt rest with
          | none => none
          | some r => some (d.map (path ++ ·) ++ r)
  | .nil, rest => by
    simp only [frameChildrenObj, List.reverse_nil, List.nil_append, visitObjRev]
    cases visitStack filt rest <;> simp
  | .cons k v fs, rest => by
    have ih := visitStack_frameChildrenObjRev filt path fs ((v, path ++ [Seg.field k]) :: rest)
    simp only [frameChildrenObj, List.reverse_cons, List.append_assoc, List.singleton_append]
    rw [ih]
    simp only [visitObjRev, visitStack, List.append_eq]
    cases visitObjRev filt fs with
    | none => rfl
    | some t =>
      cases hv : visit filt v with
      | none => rfl
      | some h =>
        cases visitStack filt rest with
        | none => rfl
        | some r =>
          simp [List.map_map, List.map_append, Function.comp, List.append_assoc]

theorem goFrames_eq_visitStack (filt : Option String) :
    ∀ frames, goFrames filt frames = visitStack filt frames
  | [] => by simp [goFrames, visitStack]
  | (n, path) :: rest => by
    cases n with
    | arr xs =>
      have ih := goFrames_eq_visitStack filt (frameChildrenArr path 0 xs ++ rest)
      simp only [goFrames, ih, visitStack_frameChildrenArr, visitStack, visit]
    | obj fs =>
      have ih := goFrames_eq_visitStack filt ((frameChildrenObj path fs).reverse ++ rest)
      simp only [goFrames, ih, visitStack_frameChildrenObjRev, visitStack, visit,
        collectHits_eq_hitsOf]
      cases hitsOf filt fs with
      | none => rfl
      | some hs =>
        cases visitObjRev filt fs with
        | none => rfl
        | some d =>
          cases visitStack filt rest with
          | none => rfl
          | some r => simp [List.map_append]
    | null =>
      have ih := goFrames_eq_visitStack filt rest
      simp only [goFrames, visitStack, visit, ih]
      cases visitStack filt rest <;> simp
    | bool b =>
      have ih := goFrames_eq_visitStack filt rest
      simp only [goFrames, visitStack, visit, ih]
      cases visitStack filt rest <;> simp
    | num m =>
      have ih := goFrames_eq_visitStack filt rest
      simp only [goFrames, visitStack, visit, ih]
      cases visitStack filt rest <;> simp
    | str s =>
      have ih := goFrames_eq_visitStack filt rest
      simp only [goFrames, visitStack, visit, ih]
      cases visitStack filt rest <;> simp
  termination_by frames => stackSize frames
  decreasing_by
  all_goals simp only [stackSize_append, stackSize_cons, stackSize_reverse,
    stackSize_frameChildrenArr, stackSize_frameChildrenObj, sizeV]
  all_goals omega

/-- The stack loop computes exactly the structurally recursive
depth-first visit. -/
theorem findAssetSegPaths_eq_visit (doc : SValue) (filt : Option String) :
    findAssetSegPaths doc filt = visit filt doc := by
  simp only [findAssetSegPaths, goFrames_eq_visitStack, visitStack]
  cases visit filt doc <;> simp

/-- What an "asset"-keyed reference value contributes under a filter:
its stripped string target, no target (absent or nullish _ref), or a
target whose inspection would throw (non-string, non-nullish _ref). -/
inductive RefInfo where
  | strTarget (t : String) : RefInfo
  | noTarget : RefInfo
  | badTarget : RefInfo
deriving DecidableEq, Repr

/-- The reference information of a value: some info exactly when the
value is an object with type tag "reference". -/
def refInfoOf (v : SValue) : Option RefInfo :=
  match v with
  | .obj fs =>
    match getField fs "_type" with
    | some (.str "reference") =>
      some
        (match getField fs "_ref" with
         | none => .noTarget
         | some .null => .noTarget
         | some (.str s) => .strTarget (stripDrafts s)
         | some _ => .badTarget)
    | _ => none
  | _ => none

/-- Annotated hits of the fields of one object: every "asset"-keyed
reference-tagged value with its reference information. -/
def annHits : SObj → List (List Seg × RefInfo)
  | .nil => []
  | .cons k v fs =>
    if k = "asset" then
      match refInfoOf v with
      | some i => ([Seg.field k], i) :: annHits fs
      | none => annHits fs
    else annHits fs

mutual
/-- Total annotated traversal: all "asset"-keyed reference-tagged
positions of a value with their reference information, in the order of
the stack loop. -/
def visitAnn : SValue → List (List Seg × RefInfo)
  | .obj fs => annHits fs ++ visitAnnObjRev fs
  | .arr xs => visitAnnArr 0 xs
  | .null => []
  | .bool _ => []
  | .num _ => []
  | .str _ => []

/-- Annotated traversal of array items, in forward order. -/
def visitAnnArr (i : Nat) : SArr → List (List Seg × RefInfo)
  | .nil => []
  | .cons x xs =>
    (visitAnn x).map (fun e => (itemSeg i x :: e.1, e.2)) ++ visitAnnArr (i + 1) xs

/-- Annotated traversal of object field subtrees, in reverse field
order. -/
def visitAnnObjRev : SObj → List (List Seg × RefInfo)
  | .nil => []
  | .cons k v fs =>
    visitAnnObjRev fs ++ (visitAnn v).map (fun e => (Seg.field k :: e.1, e.2))
end

theorem isRefTo_none_eq (v : SValue) :
    isRefTo none v = some (refInfoOf v).isSome := by
  cases v with
  | obj fs =>
    simp only [isRefTo, refInfoOf]
    cases hT : getField fs "_type" with
    | none => simp
    | some w =>
      cases w with
      | str s =>
        by_cases hs : s = "reference"
        · subst hs; simp
        · simp [hs]
      | null => simp
      | bool b => simp
      | num n => simp
      | arr xs => simp
      | obj gs => simp
  | null => simp [isRefTo, refInfoOf]
  | bool b => simp [isRefTo, refInfoOf]
  | num n => simp [isRefTo, refInfoOf]
  | str s => simp [isRefTo, refInfoOf]
  | arr xs => simp [isRefTo, refInfoOf]

theorem isRefTo_empty_eq (v : SValue) :
    isRefTo (some "") v = some (refInfoOf v).isSome := by
  cases v with
  | obj fs =>
    simp only [isRefTo, refInfoOf]
    cases hT : getField fs "_type" with
    | none => simp
    | some w =>
      cases w with
      | str s =>
        by_cases hs : s = "reference"
        · subst hs; simp
        · simp [hs]
      | null => simp
      | bool b => simp
      | num n => simp
      | arr xs => simp
      | obj gs => simp
  | null => simp [isRefTo, refInfoOf]
  | bool b => simp [isRefTo, refInfoOf]
  | num n => simp [isRefTo, refInfoOf]
  | str s => simp [isRefTo, refInfoOf]
  | arr xs => simp [isRefTo, refInfoOf]

theorem isRefTo_filter_eq (t : String) (ht : t ≠ "") (v : SValue) :
    isRefTo (some t) v =
      match refInfoOf v with
      | none => some false
      | some (.strTarget s) => some (s = t)
      | some .noTarget => some false
      | some .badTarget => none := by
  cases v with
  | obj fs =>
    simp only [isRefTo, refInfoOf]
    cases hT : getField fs "_type" with
    | none => simp
    | some w =>
      cases w with
      | str s =>
        by_cases hs : s = "reference"
        · subst hs
          simp only [if_neg ht]
          cases hR : getField fs "_ref" with
          | none => simp
          | some r => cases r <;> simp
        · simp [hs]
      | null => simp
      | bool b => simp
      | num n => simp
      | arr xs => simp
      | obj gs => simp
  | null => simp [isRefTo, refInfoOf]
  | bool b => simp [isRefTo, refInfoOf]
  | num n => simp [isRefTo, refInfoOf]
  | str s => simp [isRefTo, refInfoOf]
  | arr xs => simp [isRefTo, refInfoOf]

theorem hitsOf_none_eq : ∀ fs : SObj, hitsOf none fs = some ((annHits fs).map Prod.fst)
  | .nil => rfl
  | .cons k v fs => by
    have ih := hitsOf_none_eq fs
    by_cases hk : k = "asset"
    · simp only [hitsOf, annHits, if_pos hk, isRefTo_none_eq]
      cases refInfoOf v with
      | none => simpa using ih
      | some i => simp [ih]
    · simpa [hitsOf, annHits, if_neg hk] using ih

mutual
theorem visit_none_eq : ∀ v : SValue, visit none v = some ((visitAnn v).map Prod.fst)
  | .obj fs => by
    have ih := visitObjRev_none_eq fs
    simp [visit, visitAnn, hitsOf_none_eq fs, ih]
  | .arr xs => visitArr_none_eq 0 xs
  | .null => rfl
  | .bool _ => rfl
  | .num _ => rfl
  | .str _ => rfl

theorem visitArr_none_eq : ∀ (i : Nat) (xs : SArr),
    visitArr none i xs = some ((visitAnnArr i xs).map Prod.fst)
  | _, .nil => rfl
  | i, .cons x xs => by
    have ih1 := visit_none_eq x
    have ih2 := visitArr_none_eq (i + 1) xs
    simp [visitArr, visitAnnArr, ih1, ih2, List.map_map, Function.comp]

theorem visitObjRev_none_eq : ∀ fs : SObj,
    visitObjRev none fs = some ((visitAnnObjRev fs).map Prod.fst)
  | .nil => rfl
  | .cons k v fs => by
    have ih1 := visitObjRev_none_eq fs
    have ih2 := visit_none_eq v
    simp [visitObjRev, visitAnnObjRev, ih1, ih2, List.map_map, Function.comp]
end

theorem hitsOf_empty_eq : ∀ fs : SObj, hitsOf (some "") fs = some ((annHits fs).map Prod.fst)
  | .nil => rfl
  | .cons k v fs => by
    have ih := hitsOf_empty_eq fs
    by_cases hk : k = "asset"
    · simp only [hitsOf, annHits, if_pos hk, isRefTo_empty_eq]
      cases refInfoOf v with
      | none => simpa using ih
      | some i => simp [ih]
    · simpa [hitsOf, annHits, if_neg hk] using ih

mutual
theorem visit_empty_eq : ∀ v : SValue, visit (some "") v = some ((visitAnn v).map Prod.fst)
  | .obj fs => by
    have ih := visitObjRev_empty_eq fs
    simp [visit, visitAnn, hitsOf_empty_eq fs, ih]
  | .arr xs => visitArr_empty_eq 0 xs
  | .null => rfl
  | .bool _ => rfl
  | .num _ => rfl
  | .str _ => rfl

theorem visitArr_empty_eq : ∀ (i : Nat) (xs : SArr),
    visitArr (some "") i xs = some ((visitAnnArr i xs).map Prod.fst)
  | _, .nil => rfl
  | i, .cons x xs => by
    have ih1 := visit_empty_eq x
    have ih2 := visitArr_empty_eq (i + 1) xs
    simp [visitArr, visitAnnArr, ih1, ih2, List.map_map, Function.comp]

theorem visitObjRev_empty_eq : ∀ fs : SObj,
    visitObjRev (some "") fs = some ((visitAnnObjRev fs).map Prod.fst)
  | .nil => rfl
  | .cons k v fs => by
    have ih1 := visitObjRev_empty_eq fs
    have ih2 := visit_empty_eq v
    simp [visitObjRev, visitAnnObjRev, ih1, ih2, List.map_map, Function.comp]
end

/-- The result of a filtered traversal, computed from annotations: a
TypeError if any annotation is a bad target, otherwise the positions
annotated with exactly the filter target. -/
def annFilter (t : String) (l : List (List Seg × RefInfo)) : Option (List (List Seg)) :=
  if l.any (fun e => e.2 = RefInfo.badTarget) then none
  else some ((l.filter (fun e => e.2 = RefInfo.strTarget t)).map Prod.fst)

theorem annFilter_nil (t : String) : annFilter t [] = some [] := rfl

theorem annFilter_append (t : String) (a b : List (List Seg × RefInfo)) :
    annFilter t (a ++ b) =
      match annFilter t a, annFilter t b with
      | some x, some y => some (x ++ y)
      | _, _ => none := by
  simp only [annFilter, List.any_append, List.filter_append, List.map_append]
  by_cases ha : a.any (fun e => e.2 = RefInfo.badTarget)
  · simp [ha]
  · by_cases hb : b.any (fun e => e.2 = RefInfo.badTarget) <;> simp [ha, hb]

theorem annFilter_prefixMap (t : String) (seg : Seg) (l : List (List Seg × RefInfo)) :
    annFilter t (l.map fun e => (seg :: e.1, e.2)) =
      (annFilter t l).map (List.map (seg :: ·)) := by
  have hany : ((l.map fun e => ((seg :: e.1, e.2) : List Seg × RefInfo)).any
      fun e => e.2 = RefInfo.badTarget) = (l.any fun e => e.2 = RefInfo.badTarget) := by
    simp only [List.any_map]
    rfl
  simp only [annFilter, hany]
  by_cases h : (l.any fun e => e.2 = RefInfo.badTarget) = true
  · simp [h]
  · have hpred : ((fun (e : List Seg × RefInfo) => decide (e.2 = RefInfo.strTarget t)) ∘
        fun (e : List Seg × RefInfo) => ((seg :: e.1, e.2) : List Seg × RefInfo)) =
        fun (e : List Seg × RefInfo) => decide (e.2 = RefInfo.strTarget t) := by
      funext e
      rfl
    have hmap : ((Prod.fst : List Seg × RefInfo → List Seg) ∘
        fun (e : List Seg × RefInfo) => ((seg :: e.1, e.2) : List Seg × RefInfo)) =
        (fun x => seg :: x) ∘ (Prod.fst : List Seg × RefInfo → List Seg) := by
      funext e
      rfl
    simp [h, List.filter_map, List.map_map, hpred, hmap]

theorem annFilter_cons_bad (t : String) (p : List Seg) (l : List (List Seg × RefInfo)) :
    annFilter t ((p, RefInfo.badTarget) :: l) = none := by
  simp [annFilter]

theorem annFilter_cons_hit (t : String) (p : List Seg) (l : List (List Seg × RefInfo)) :
    annFilter t ((p, RefInfo.strTarget t) :: l) = (annFilter t l).map (p :: ·) := by
  simp only [annFilter, List.any_cons, List.filter_cons]
  by_cases h : (l.any fun e => e.2 = RefInfo.badTarget) = true
  · simp [h]
  · simp [h]

theorem annFilter_cons_miss (t : String) (p : List Seg) (i : RefInfo)
    (hbad : i ≠ RefInfo.badTarget) (hmiss : i ≠ RefInfo.strTarget t)
    (l : List (List Seg × RefInfo)) :
    annFilter t ((p, i) :: l) = annFilter t l := by
  have h1 : (((p, i) :: l).any fun e => e.2 = RefInfo.badTarget) =
      (l.any fun e => e.2 = RefInfo.badTarget) := by
    simp [List.any_cons, hbad]
  have h2 : (((p, i) :: l).filter fun e => e.2 = RefInfo.strTarget t) =
      (l.filter fun e => e.2 = RefInfo.strTarget t) := by
    simp [List.filter_cons, hmiss]
  simp only [annFilter, h1, h2]

theorem hitsOf_filter_eq (t : String) (ht : t ≠ "") :
    ∀ fs : SObj, hitsOf (some t) fs = annFilter t (annHits fs)
  | .nil => rfl
  | .cons k v fs => by
    have ih := hitsOf_filter_eq t ht fs
    by_cases hk : k = "asset"
    · simp only [hitsOf, annHits, if_pos hk, isRefTo_filter_eq t ht]
      cases hri : refInfoOf v with
      | none => simpa using ih
      | some i =>
        cases i with
        | strTarget s =>
          by_cases hs : s = t
          · subst hs
            have hd : decide (s = s) = true := by simp
            simp only [hd, ih, annFilter_cons_hit]
            cases annFilter s (annHits fs) <;> simp
          · have hd : decide (s = t) = false := by simp [hs]
            have hm : annFilter t (([Seg.field k], RefInfo.strTarget s) :: annHits fs) =
                annFilter t (annHits fs) := by
              apply annFilter_cons_miss
              · simp
              · simp [hs]
            simp only [hd, hm, ih]
        | noTarget =>
          have hm : annFilter t (([Seg.field k], RefInfo.noTarget) :: annHits fs) =
              annFilter t (annHits fs) := by
            apply annFilter_cons_miss <;> simp
          simp only [hm, ih]
        | badTarget =>
          simp [annFilter_cons_bad]
    · simpa [hitsOf, annHits, if_neg hk] using ih

mutual
theorem visit_filter_eq (t : String) (ht : t ≠ "") :
    ∀ v : SValue, visit (some t) v = annFilter t (visitAnn v)
  | .obj fs => by
    have ih := visitObjRev_filter_eq t ht fs
    have hh := hitsOf_filter_eq t ht fs
    simp only [visit, visitAnn, hh, ih, annFilter_append]
    cases annFilter t (annHits fs) <;> cases annFilter t (visitAnnObjRev fs) <;> simp
  | .arr xs => visitArr_filter_eq t ht 0 xs
  | .null => rfl
  | .bool _ => rfl
  | .num _ => rfl
  | .str _ => rfl

theorem visitArr_filter_eq (t : String) (ht : t ≠ "") :
    ∀ (i : Nat) (xs : SArr), visitArr (some t) i xs = annFilter t (visitAnnArr i xs)
  | _, .nil => rfl
  | i, .cons x xs => by
    have ih1 := visit_filter_eq t ht x
    have ih2 := visitArr_filter_eq t ht (i + 1) xs
    simp only [visitArr, visitAnnArr, ih1, ih2, annFilter_append, annFilter_prefixMap]
    cases annFilter t (visitAnn x) <;> cases annFilter t (visitAnnArr (i + 1) xs) <;> simp

theorem visitObjRev_filter_eq (t : String) (ht : t ≠ "") :
    ∀ fs : SObj, visitObjRev (some t) fs = annFilter t (visitAnnObjRev fs)
  | .nil => rfl
  | .cons k v fs => by
    have ih1 := visitObjRev_filter_eq t ht fs
    have ih2 := visit_filter_eq t ht v
    simp only [visitObjRev, visitAnnObjRev, ih1, ih2, annFilter_append, annFilter_prefixMap]
    cases annFilter t (visitAnnObjRev fs) <;> cases annFilter t (visitAnn v) <;> simp
end

theorem findAssetSegPaths_none_eq (doc : SValue) :
    findAssetSegPaths doc none = some ((visitAnn doc).map Prod.fst) := by
  rw [findAssetSegPaths_eq_visit, visit_none_eq]

theorem findAssetSegPaths_empty_eq (doc : SValue) :
    findAssetSegPaths doc (some "") = some ((visitAnn doc).map Prod.fst) := by
  rw [findAssetSegPaths_eq_visit, visit_empty_eq]

theorem findAssetSegPaths_filter_eq (doc : SValue) (t : String) (ht : t ≠ "") :
    findAssetSegPaths doc (some t) = annFilter t (visitAnn doc) := by
  rw [findAssetSegPaths_eq_visit, visit_filter_eq t ht]

/-- Whether an object has a field with the given key. -/
def objHasKey : SObj → String → Bool
  | .nil, _ => false
  | .cons k _ fs, key => k = key || objHasKey fs key

/-- Adding a fresh field at the end of an object. -/
def appendField : SObj → String → SValue → SObj
  | .nil, k, nv => .cons k nv .nil
  | .cons k' v fs, k, nv => .cons k' v (appendField fs k nv)

mutual
/-- Modelled from the spec: the store patch interface applies a mapping
of path to value "set" instructions per document (section 6); the design
notes (section 9) direct that a path be modelled as a sequence of typed
segments, serialized only at the store boundary.  The store itself is
vendor code, absent from the repository: this definition interprets one
set instruction structurally.  A field segment descends into (all)
fields of that name, creating the field at the final position when
absent; positional segments descend into that position; identity
segments descend into every item carrying that key; navigation that
does not match the document shape leaves the value unchanged. -/
def setAtPath : SValue → List Seg → SValue → SValue
  | _, [], nv => nv
  | .obj fs, .field k :: rest, nv =>
    if objHasKey fs k then .obj (setObjKey fs k rest nv)
    else if rest.isEmpty then .obj (appendField fs k nv)
    else .obj fs
  | .arr xs, .idx i :: rest, nv => .arr (setArrIdx xs i rest nv)
  | .arr xs, .keyed k :: rest, nv => .arr (setArrKeyed xs k rest nv)
  | v, _ :: _, _ => v
  termination_by structural v => v

/-- Apply the rest of a set instruction inside every field named k. -/
def setObjKey : SObj → String → List Seg → SValue → SObj
  | .nil, _, _, _ => .nil
  | .cons k' v fs, k, rest, nv =>
    .cons k' (if k' = k then setAtPath v rest nv else v) (setObjKey fs k rest nv)
  termination_by structural fs => fs

/-- Apply the rest of a set instruction at one position of an array. -/
def setArrIdx : SArr → Nat → List Seg → SValue → SArr
  | .nil, _, _, _ => .nil
  | .cons x xs, 0, rest, nv => .cons (setAtPath x rest nv) xs
  | .cons x xs, j + 1, rest, nv => .cons x (setArrIdx xs j rest nv)
  termination_by structural xs => xs

/-- Apply the rest of a set instruction inside every item carrying the
identity key k. -/
def setArrKeyed : SArr → String → List Seg → SValue → SArr
  | .nil, _, _, _ => .nil
  | .cons x xs, k, rest, nv =>
    .cons (if keyOf x = some k then setAtPath x rest nv else x) (setArrKeyed xs k rest nv)
  termination_by structural xs => xs
end

/-- A segment path that ends with a field segment. -/
def EndsField (q : List Seg) : Prop :=
  ∃ q' k, q = q' ++ [Seg.field k]

/-- A segment path that ends with a field segment whose key is none of
the bookkeeping keys read by the traversal. -/
def EndsFieldOk (q : List Seg) : Prop :=
  ∃ q' k, q = q' ++ [Seg.field k] ∧ k ≠ "_type" ∧ k ≠ "_ref" ∧ k ≠ "_key"

theorem EndsField_of_ok {q : List Seg} (h : EndsFieldOk q) : EndsField q := by
  obtain ⟨q', k, hq, -, -, -⟩ := h
  exact ⟨q', k, hq⟩

theorem EndsField.ne_nil {q : List Seg} (h : EndsField q) : q ≠ [] := by
  obtain ⟨q', k, rfl⟩ := h
  simp

theorem EndsField.tailEF {seg : Seg} {rest : List Seg} (h : EndsField (seg :: rest))
    (hne : rest ≠ []) : EndsField rest := by
  obtain ⟨q', k, hq⟩ := h
  cases q' with
  | nil => simp at hq; simp [hq.2] at hne
  | cons s q'' =>
    simp only [List.cons_append, List.cons.injEq] at hq
    exact ⟨q'', k, hq.2⟩

theorem EndsField.head_field {rest : List Seg} {seg : Seg} (h : EndsField (seg :: rest))
    (hnil : rest = []) : ∃ k, seg = Seg.field k := by
  obtain ⟨q', k, hq⟩ := h
  cases q' with
  | nil => simp at hq; exact ⟨k, hq.1⟩
  | cons s q'' =>
    subst hnil
    simp only [List.cons_append, List.cons.injEq] at hq
    exact absurd hq.2 (by simp)

theorem EndsFieldOk.tailEFO {seg : Seg} {rest : List Seg} (h : EndsFieldOk (seg :: rest))
    (hne : rest ≠ []) : EndsFieldOk rest := by
  obtain ⟨q', k, hq, h1, h2, h3⟩ := h
  cases q' with
  | nil => simp at hq; simp [hq.2] at hne
  | cons s q'' =>
    simp only [List.cons_append, List.cons.injEq] at hq
    exact ⟨q'', k, hq.2, h1, h2, h3⟩

theorem EndsFieldOk.head_key {k : String} {rest : List Seg}
    (h : EndsFieldOk (Seg.field k :: rest)) (hnil : rest = []) :
    k ≠ "_type" ∧ k ≠ "_ref" ∧ k ≠ "_key" := by
  obtain ⟨q', k', hq, h1, h2, h3⟩ := h
  cases q' with
  | nil =>
    simp only [List.nil_append, List.cons.injEq, Seg.field.injEq] at hq
    exact hq.1 ▸ ⟨h1, h2, h3⟩
  | cons s q'' =>
    subst hnil
    simp only [List.cons_append, List.cons.injEq] at hq
    exact absurd hq.2 (by simp)


theorem setAtPath_null (q : List Seg) (nv : SValue) (h : q ≠ []) :
    setAtPath .null q nv = .null := by
  cases q with
  | nil => exact absurd rfl h
  | cons seg rest => cases seg <;> rfl

theorem setAtPath_bool (b : Bool) (q : List Seg) (nv : SValue) (h : q ≠ []) :
    setAtPath (.bool b) q nv = .bool b := by
  cases q with
  | nil => exact absurd rfl h
  | cons seg rest => cases seg <;> rfl

theorem setAtPath_num (n : Int) (q : List Seg) (nv : SValue) (h : q ≠ []) :
    setAtPath (.num n) q nv = .num n := by
  cases q with
  | nil => exact absurd rfl h
  | cons seg rest => cases seg <;> rfl

theorem setAtPath_str (s : String) (q : List Seg) (nv : SValue) (h : q ≠ []) :
    setAtPath (.str s) q nv = .str s := by
  cases q with
  | nil => exact absurd rfl h
  | cons seg rest => cases seg <;> rfl

theorem setAtPath_obj_shape (fs : SObj) (seg : Seg) (rest : List Seg) (nv : SValue) :
    ∃ gs, setAtPath (.obj fs) (seg :: rest) nv = .obj gs := by
  cases seg with
  | field k =>
    by_cases h : objHasKey fs k = true
    · exact ⟨setObjKey fs k rest nv, by simp [setAtPath, h]⟩
    · by_cases hr : rest.isEmpty
      · exact ⟨appendField fs k nv, by simp [setAtPath, h, hr]⟩
      · exact ⟨fs, by simp [setAtPath, h, hr]⟩
  | idx i => exact ⟨fs, rfl⟩
  | keyed k => exact ⟨fs, rfl⟩

theorem setAtPath_arr_shape (xs : SArr) (seg : Seg) (rest : List Seg) (nv : SValue) :
    ∃ ys, setAtPath (.arr xs) (seg :: rest) nv = .arr ys := by
  cases seg with
  | field k => exact ⟨xs, rfl⟩
  | idx i => exact ⟨setArrIdx xs i rest nv, rfl⟩
  | keyed k => exact ⟨setArrKeyed xs k rest nv, rfl⟩

theorem getField_setObjKey_of_ne (key k : String) (h : key ≠ k) (rest : List Seg)
    (nv : SValue) : ∀ fs : SObj, getField (setObjKey fs k rest nv) key = getField fs key
  | .nil => rfl
  | .cons k' v fs => by
    have ih := getField_setObjKey_of_ne key k h rest nv fs
    by_cases hk : k' = key
    · subst hk
      simp [setObjKey, getField, h]
    · simp [setObjKey, getField, hk, ih]

theorem getField_setObjKey_self (k : String) (rest : List Seg) (nv : SValue) :
    ∀ fs : SObj,
      getField (setObjKey fs k rest nv) k = (getField fs k).map (fun w => setAtPath w rest nv)
  | .nil => rfl
  | .cons k' v fs => by
    have ih := getField_setObjKey_self k rest nv fs
    by_cases hk : k' = k
    · subst hk
      simp [setObjKey, getField]
    · simp [setObjKey, getField, hk, ih]

theorem getField_appendField_of_ne (key k : String) (h : key ≠ k) (nv : SValue) :
    ∀ fs : SObj, getField (appendField fs k nv) key = getField fs key
  | .nil => by
    simp [appendField, getField, Ne.symm h]
  | .cons k' v fs => by
    have ih := getField_appendField_of_ne key k h nv fs
    by_cases hk : k' = key
    · simp [appendField, getField, hk]
    · simp [appendField, getField, hk, ih]

theorem setAtPath_obj_idx (fs : SObj) (i : Nat) (rest : List Seg) (nv : SValue) :
    setAtPath (.obj fs) (Seg.idx i :: rest) nv = .obj fs := rfl

theorem setAtPath_obj_keyed (fs : SObj) (k : String) (rest : List Seg) (nv : SValue) :
    setAtPath (.obj fs) (Seg.keyed k :: rest) nv = .obj fs := rfl

theorem setAtPath_obj_field_pos (fs : SObj) (k : String) (rest : List Seg) (nv : SValue)
    (h : objHasKey fs k = true) :
    setAtPath (.obj fs) (Seg.field k :: rest) nv = .obj (setObjKey fs k rest nv) := by
  simp [setAtPath, h]

theorem setAtPath_obj_field_append (fs : SObj) (k : String) (nv : SValue)
    (h : objHasKey fs k = false) :
    setAtPath (.obj fs) [Seg.field k] nv = .obj (appendField fs k nv) := by
  simp [setAtPath, h]

theorem setAtPath_obj_field_miss (fs : SObj) (k : String) (rest : List Seg) (nv : SValue)
    (h : objHasKey fs k = false) (hr : rest ≠ []) :
    setAtPath (.obj fs) (Seg.field k :: rest) nv = .obj fs := by
  have : rest.isEmpty = false := by
    cases rest
    · exact absurd rfl hr
    · rfl
  simp [setAtPath, h, this]

theorem setAtPath_arr_field (xs : SArr) (k : String) (rest : List Seg) (nv : SValue) :
    setAtPath (.arr xs) (Seg.field k :: rest) nv = .arr xs := rfl

mutual
theorem jsToString_set : ∀ (v : SValue) (q : List Seg) (nv : SValue), EndsField q →
    jsToString (setAtPath v q nv) = jsToString v
  | v, q, nv, hq => by
    have hne : q ≠ [] := hq.ne_nil
    cases v with
    | null => rw [setAtPath_null _ _ hne]
    | bool b => rw [setAtPath_bool _ _ _ hne]
    | num n => rw [setAtPath_num _ _ _ hne]
    | str s => rw [setAtPath_str _ _ _ hne]
    | obj fs =>
      cases q with
      | nil => exact absurd rfl hne
      | cons seg rest =>
        obtain ⟨gs, hg⟩ := setAtPath_obj_shape fs seg rest nv
        rw [hg]
        simp only [jsToString]
    | arr xs =>
      cases q with
      | nil => exact absurd rfl hne
      | cons seg rest =>
        cases seg with
        | field k => rw [setAtPath_arr_field]
        | idx i =>
          have hrne : rest ≠ [] := by
            intro h0
            obtain ⟨k, hk⟩ := hq.head_field h0
            simp at hk
          have hrq : EndsField rest := hq.tailEF hrne
          show jsToString (.arr (setArrIdx xs i rest nv)) = _
          simp only [jsToString]
          exact jsToStringArr_setIdx xs i rest nv hrne hrq
        | keyed k =>
          have hrne : rest ≠ [] := by
            intro h0
            obtain ⟨k', hk⟩ := hq.head_field h0
            simp at hk
          have hrq : EndsField rest := hq.tailEF hrne
          show jsToString (.arr (setArrKeyed xs k rest nv)) = _
          simp only [jsToString]
          exact jsToStringArr_setKeyed xs k rest nv hrne hrq

theorem jsElemStr_set : ∀ (x : SValue) (rest : List Seg) (nv : SValue), rest ≠ [] →
    EndsField rest → jsElemStr (setAtPath x rest nv) = jsElemStr x
  | x, rest, nv, hne, hq => by
    cases x with
    | null => rw [setAtPath_null _ _ hne]
    | bool b => rw [setAtPath_bool _ _ _ hne]
    | num n => rw [setAtPath_num _ _ _ hne]
    | str s => rw [setAtPath_str _ _ _ hne]
    | obj fs =>
      cases rest with
      | nil => exact absurd rfl hne
      | cons seg rest' =>
        obtain ⟨gs, hg⟩ := setAtPath_obj_shape fs seg rest' nv
        rw [hg]
        simp only [jsElemStr]
    | arr xs =>
      cases rest with
      | nil => exact absurd rfl hne
      | cons seg rest' =>
        obtain ⟨ys, hy⟩ := setAtPath_arr_shape xs seg rest' nv
        have h := jsToString_set (.arr xs) (seg :: rest') nv hq
        rw [hy] at h ⊢
        simp only [jsToString] at h
        simp only [jsElemStr]
        exact h

theorem jsToStringArr_setIdx : ∀ (xs : SArr) (j : Nat) (rest : List Seg) (nv : SValue),
    rest ≠ [] → EndsField rest → jsToStringArr (setArrIdx xs j rest nv) = jsToStringArr xs
  | .nil, _, _, _, _, _ => rfl
  | .cons x .nil, 0, rest, nv, hne, hq => by
    show jsToStringArr (.cons (setAtPath x rest nv) .nil) = _
    simp only [jsToStringArr]
    exact jsElemStr_set x rest nv hne hq
  | .cons x .nil, j + 1, rest, nv, hne, hq => rfl
  | .cons x (.cons y ys), 0, rest, nv, hne, hq => by
    show jsToStringArr (.cons (setAtPath x rest nv) (.cons y ys)) = _
    simp only [jsToStringArr]
    rw [jsElemStr_set x rest nv hne hq]
  | .cons x (.cons y ys), j + 1, rest, nv, hne, hq => by
    have ih := jsToStringArr_setIdx (.cons y ys) j rest nv hne hq
    show jsToStringArr (.cons x (setArrIdx (.cons y ys) j rest nv)) = _
    cases j with
    | zero =>
      show jsToStringArr (.cons x (.cons (setAtPath y rest nv) ys)) = _
      simp only [jsToStringArr]
      show jsElemStr x ++ "," ++ jsToStringArr (setArrIdx (.cons y ys) 0 rest nv) = _
      rw [ih]
    | succ j' =>
      show jsToStringArr (.cons x (.cons y (setArrIdx ys j' rest nv))) = _
      simp only [jsToStringArr]
      show jsElemStr x ++ "," ++ jsToStringArr (setArrIdx (.cons y ys) (j' + 1) rest nv) = _
      rw [ih]

theorem jsToStringArr_setKeyed : ∀ (xs : SArr) (k : String) (rest : List Seg) (nv : SValue),
    rest ≠ [] → EndsField rest → jsToStringArr (setArrKeyed xs k rest nv) = jsToStringArr xs
  | .nil, _, _, _, _, _ => rfl
  | .cons x .nil, k, rest, nv, hne, hq => by
    show jsToStringArr (.cons (if keyOf x = some k then setAtPath x rest nv else x) .nil) = _
    by_cases hk : keyOf x = some k
    · rw [if_pos hk]
      simp only [jsToStringArr]
      exact jsElemStr_set x rest nv hne hq
    · rw [if_neg hk]
  | .cons x (.cons y ys), k, rest, nv, hne, hq => by
    have ih := jsToStringArr_setKeyed (.cons y ys) k rest nv hne hq
    show jsToStringArr (.cons (if keyOf x = some k then setAtPath x rest nv else x)
      (setArrKeyed (.cons y ys) k rest nv)) = _
    have hx : jsElemStr (if keyOf x = some k then setAtPath x rest nv else x) = jsElemStr x := by
      by_cases hk : keyOf x = some k
      · rw [if_pos hk]
        exact jsElemStr_set x rest nv hne hq
      · rw [if_neg hk]
    show jsToStringArr (.cons (if keyOf x = some k then setAtPath x rest nv else x)
      (.cons (if keyOf y = some k then setAtPath y rest nv else y) (setArrKeyed ys k rest nv))) = _
    simp only [jsToStringArr]
    rw [hx]
    show jsElemStr x ++ "," ++ jsToStringArr (setArrKeyed (.cons y ys) k rest nv) = _
    rw [ih]
end

theorem jsTruthy_set (v : SValue) (q : List Seg) (nv : SValue) (hne : q ≠ []) :
    jsTruthy (setAtPath v q nv) = jsTruthy v := by
  cases v with
  | null => rw [setAtPath_null _ _ hne]
  | bool b => rw [setAtPath_bool _ _ _ hne]
  | num n => rw [setAtPath_num _ _ _ hne]
  | str s => rw [setAtPath_str _ _ _ hne]
  | obj fs =>
    cases q with
    | nil => exact absurd rfl hne
    | cons seg rest =>
      obtain ⟨gs, hg⟩ := setAtPath_obj_shape fs seg rest nv
      rw [hg]
      simp [jsTruthy]
  | arr xs =>
    cases q with
    | nil => exact absurd rfl hne
    | cons seg rest =>
      obtain ⟨ys, hy⟩ := setAtPath_arr_shape xs seg rest nv
      rw [hy]
      simp [jsTruthy]

theorem keyOf_set (x : SValue) (q : List Seg) (nv : SValue) (hq : EndsFieldOk q) :
    keyOf (setAtPath x q nv) = keyOf x := by
  have hne : q ≠ [] := (EndsField_of_ok hq).ne_nil
  cases x with
  | null => rw [setAtPath_null _ _ hne]
  | bool b => rw [setAtPath_bool _ _ _ hne]
  | num n => rw [setAtPath_num _ _ _ hne]
  | str s => rw [setAtPath_str _ _ _ hne]
  | arr xs =>
    cases q with
    | nil => exact absurd rfl hne
    | cons seg rest =>
      obtain ⟨ys, hy⟩ := setAtPath_arr_shape xs seg rest nv
      rw [hy]
      simp [keyOf]
  | obj fs =>
    cases q with
    | nil => exact absurd rfl hne
    | cons seg rest =>
      cases seg with
      | idx i => rw [setAtPath_obj_idx]
      | keyed k => rw [setAtPath_obj_keyed]
      | field k =>
        by_cases hk : objHasKey fs k = true
        · rw [setAtPath_obj_field_pos fs k rest nv hk]
          by_cases hkey : k = "_key"
          · subst hkey
            have hrne : rest ≠ [] := by
              intro h0
              obtain ⟨-, -, h3⟩ := EndsFieldOk.head_key hq h0
              exact h3 rfl
            have hrq : EndsFieldOk rest := hq.tailEFO hrne
            simp only [keyOf, getField_setObjKey_self]
            cases hK : getField fs "_key" with
            | none => rfl
            | some w =>
              simp only [Option.map_some']
              rw [jsTruthy_set w rest nv hrne,
                jsToString_set w rest nv (EndsField_of_ok hrq)]
          · simp only [keyOf,
              getField_setObjKey_of_ne "_key" k (fun h => hkey h.symm) rest nv fs]
        · by_cases hr : rest = []
          · subst hr
            obtain ⟨-, -, h3⟩ := EndsFieldOk.head_key hq rfl
            rw [setAtPath_obj_field_append fs k nv (by simpa using hk)]
            simp only [keyOf, getField_appendField_of_ne "_key" k (fun h => h3 h.symm) nv fs]
          · rw [setAtPath_obj_field_miss fs k rest nv (by simpa using hk) hr]

/-- The classification of a _ref value, shared by isRefTo and the
annotated traversal. -/
def refArm : Option SValue → RefInfo
  | none => .noTarget
  | some .null => .noTarget
  | some (.str s) => .strTarget (stripDrafts s)
  | some _ => .badTarget

theorem refInfoOf_obj (fs : SObj) :
    refInfoOf (.obj fs) =
      if getField fs "_type" = some (.str "reference") then some (refArm (getField fs "_ref"))
      else none := by
  simp only [refInfoOf]
  cases hT : getField fs "_type" with
  | none => simp
  | some w =>
    cases w with
    | str s =>
      by_cases hs : s = "reference"
      · subst hs
        simp only [if_pos rfl]
        cases hR : getField fs "_ref" with
        | none => rfl
        | some r => cases r <;> rfl
      · simp [hs]
    | null => simp
    | bool b => simp
    | num n => simp
    | arr xs => simp
    | obj gs => simp

theorem setAtPath_eq_str_iff (w : SValue) (rest : List Seg) (nv : SValue) (hrne : rest ≠ [])
    (s : String) : setAtPath w rest nv = .str s ↔ w = .str s := by
  cases w with
  | null => rw [setAtPath_null _ _ hrne]
  | bool b => rw [setAtPath_bool _ _ _ hrne]
  | num n => rw [setAtPath_num _ _ _ hrne]
  | str s' => rw [setAtPath_str _ _ _ hrne]
  | obj fs =>
    cases rest with
    | nil => exact absurd rfl hrne
    | cons seg rest' =>
      obtain ⟨gs, hg⟩ := setAtPath_obj_shape fs seg rest' nv
      rw [hg]
      simp
  | arr xs =>
    cases rest with
    | nil => exact absurd rfl hrne
    | cons seg rest' =>
      obtain ⟨ys, hy⟩ := setAtPath_arr_shape xs seg rest' nv
      rw [hy]
      simp

theorem refArm_set (w : SValue) (rest : List Seg) (nv : SValue) (hrne : rest ≠ []) :
    refArm (some (setAtPath w rest nv)) = refArm (some w) := by
  cases w with
  | null => rw [setAtPath_null _ _ hrne]
  | bool b => rw [setAtPath_bool _ _ _ hrne]
  | num n => rw [setAtPath_num _ _ _ hrne]
  | str s => rw [setAtPath_str _ _ _ hrne]
  | obj fs =>
    cases rest with
    | nil => exact absurd rfl hrne
    | cons seg rest' =>
      obtain ⟨gs, hg⟩ := setAtPath_obj_shape fs seg rest' nv
      rw [hg]
      rfl
  | arr xs =>
    cases rest with
    | nil => exact absurd rfl hrne
    | cons seg rest' =>
      obtain ⟨ys, hy⟩ := setAtPath_arr_shape xs seg rest' nv
      rw [hy]
      rfl

theorem refInfoOf_set (w : SValue) (q : List Seg) (nv : SValue) (hq : EndsFieldOk q) :
    refInfoOf (setAtPath w q nv) = refInfoOf w := by
  have hne : q ≠ [] := (EndsField_of_ok hq).ne_nil
  cases w with
  | null => rw [setAtPath_null _ _ hne]
  | bool b => rw [setAtPath_bool _ _ _ hne]
  | num n => rw [setAtPath_num _ _ _ hne]
  | str s => rw [setAtPath_str _ _ _ hne]
  | arr xs =>
    cases q with
    | nil => exact absurd rfl hne
    | cons seg rest =>
      obtain ⟨ys, hy⟩ := setAtPath_arr_shape xs seg rest nv
      rw [hy]
      rfl
  | obj fs =>
    cases q with
    | nil => exact absurd rfl hne
    | cons seg rest =>
      cases seg with
      | idx i => rw [setAtPath_obj_idx]
      | keyed k => rw [setAtPath_obj_keyed]
      | field k =>
        by_cases hk : objHasKey fs k = true
        · rw [setAtPath_obj_field_pos fs k rest nv hk, refInfoOf_obj, refInfoOf_obj]
          by_cases hT : k = "_type"
          · subst hT
            have hrne : rest ≠ [] := by
              intro h0
              obtain ⟨h1, -, -⟩ := EndsFieldOk.head_key hq h0
              exact h1 rfl
            rw [getField_setObjKey_self,
              getField_setObjKey_of_ne "_ref" "_type" (by decide) rest nv fs]
            cases hT' : getField fs "_type" with
            | none => simp
            | some w1 =>
              simp only [Option.map_some']
              simp [setAtPath_eq_str_iff w1 rest nv hrne]
          · by_cases hR : k = "_ref"
            · subst hR
              have hrne : rest ≠ [] := by
                intro h0
                obtain ⟨-, h2, -⟩ := EndsFieldOk.head_key hq h0
                exact h2 rfl
              rw [getField_setObjKey_of_ne "_type" "_ref" (by decide) rest nv fs,
                getField_setObjKey_self]
              by_cases hcond : getField fs "_type" = some (.str "reference")
              · simp only [hcond, if_pos rfl]
                cases hR' : getField fs "_ref" with
                | none => rfl
                | some w1 =>
                  simp only [Option.map_some']
                  rw [refArm_set w1 rest nv hrne]
              · simp [hcond]
            · rw [getField_setObjKey_of_ne "_type" k (fun h => hT h.symm) rest nv fs,
                getField_setObjKey_of_ne "_ref" k (fun h => hR h.symm) rest nv fs]
        · by_cases hr : rest = []
          · subst hr
            obtain ⟨h1, h2, -⟩ := EndsFieldOk.head_key hq rfl
            rw [setAtPath_obj_field_append fs k nv (by simpa using hk), refInfoOf_obj,
              refInfoOf_obj, getField_appendField_of_ne "_type" k (fun h => h1 h.symm) nv fs,
              getField_appendField_of_ne "_ref" k (fun h => h2 h.symm) nv fs]
          · rw [setAtPath_obj_field_miss fs k rest nv (by simpa using hk) hr]

theorem annHits_mem : ∀ (fs : SObj) (e : List Seg × RefInfo), e ∈ annHits fs →
    e.1 = [Seg.field "asset"]
  | .nil, e, he => absurd he (by simp [annHits])
  | .cons k v fs, e, he => by
    by_cases hk : k = "asset"
    · rw [annHits, if_pos hk] at he
      cases hri : refInfoOf v with
      | none =>
        rw [hri] at he
        exact annHits_mem fs e he
      | some i =>
        rw [hri] at he
        rcases List.mem_cons.mp he with h | h
        · rw [h, hk]
        · exact annHits_mem fs e h
    · rw [annHits, if_neg hk] at he
      exact annHits_mem fs e he

theorem annHits_setObjKey_stable (k : String) (rest : List Seg) (nv : SValue)
    (hrne : rest ≠ []) (hrq : EndsFieldOk rest) :
    ∀ fs : SObj, annHits (setObjKey fs k rest nv) = annHits fs
  | .nil => rfl
  | .cons k' v fs => by
    have ih := annHits_setObjKey_stable k rest nv hrne hrq fs
    show annHits (.cons k' (if k' = k then setAtPath v rest nv else v)
      (setObjKey fs k rest nv)) = _
    by_cases hk : k' = "asset"
    · rw [annHits, if_pos hk, annHits, if_pos hk, ih]
      by_cases hkk : k' = k
      · rw [if_pos hkk, refInfoOf_set v rest nv hrq]
      · rw [if_neg hkk]
    · rw [annHits, if_neg hk, annHits, if_neg hk, ih]

theorem annHits_setObjKey_ne_asset (k : String) (hk : k ≠ "asset") (rest : List Seg)
    (nv : SValue) : ∀ fs : SObj, annHits (setObjKey fs k rest nv) = annHits fs
  | .nil => rfl
  | .cons k' v fs => by
    have ih := annHits_setObjKey_ne_asset k hk rest nv fs
    show annHits (.cons k' (if k' = k then setAtPath v rest nv else v)
      (setObjKey fs k rest nv)) = _
    by_cases hka : k' = "asset"
    · have hkk : ¬(k' = k) := fun h => hk (h ▸ hka ▸ rfl)
      rw [annHits, if_pos hka, annHits, if_pos hka, if_neg hkk, ih]
    · rw [annHits, if_neg hka, annHits, if_neg hka, ih]

theorem setAtPath_nil (v nv : SValue) : setAtPath v [] nv = nv := by
  cases v <;> rfl

theorem annHits_setObjKey_asset_nil (nv : SValue) (hnv : refInfoOf nv = none) :
    ∀ fs : SObj, annHits (setObjKey fs "asset" [] nv) = []
  | .nil => rfl
  | .cons k' v fs => by
    have ih := annHits_setObjKey_asset_nil nv hnv fs
    show annHits (.cons k' (if k' = "asset" then setAtPath v [] nv else v)
      (setObjKey fs "asset" [] nv)) = _
    by_cases hk : k' = "asset"
    · rw [annHits, if_pos hk, if_pos hk, setAtPath_nil, hnv, ih]
    · rw [annHits, if_neg hk, ih]

theorem annHits_appendField (k : String) (nv : SValue) (hnv : refInfoOf nv = none) :
    ∀ fs : SObj, annHits (appendField fs k nv) = annHits fs
  | .nil => by
    show annHits (.cons k nv .nil) = []
    by_cases hk : k = "asset"
    · rw [annHits, if_pos hk, hnv]
      rfl
    · rw [annHits, if_neg hk]
      rfl
  | .cons k' v fs => by
    have ih := annHits_appendField k nv hnv fs
    show annHits (.cons k' v (appendField fs k nv)) = _
    by_cases hk : k' = "asset"
    · rw [annHits, if_pos hk, annHits, if_pos hk, ih]
    · rw [annHits, if_neg hk, annHits, if_neg hk, ih]

theorem visitAnnObjRev_appendField (k : String) (nv : SValue) (hnv : visitAnn nv = []) :
    ∀ fs : SObj, visitAnnObjRev (appendField fs k nv) = visitAnnObjRev fs
  | .nil => by
    show visitAnnObjRev (.cons k nv .nil) = []
    rw [visitAnnObjRev, visitAnnObjRev, hnv]
    rfl
  | .cons k' v fs => by
    have ih := visitAnnObjRev_appendField k nv hnv fs
    show visitAnnObjRev (.cons k' v (appendField fs k nv)) = _
    rw [visitAnnObjRev, visitAnnObjRev, ih]

theorem visitAnnObjRev_key_mem : ∀ (fs : SObj) (e : List Seg × RefInfo),
    e ∈ visitAnnObjRev fs → ∃ k' tail, e.1 = Seg.field k' :: tail ∧ objHasKey fs k' = true
  | .nil, e, he => absurd he (by simp [visitAnnObjRev])
  | .cons k v fs, e, he => by
    rw [visitAnnObjRev] at he
    rcases List.mem_append.mp he with h | h
    · obtain ⟨k', tail, h1, h2⟩ := visitAnnObjRev_key_mem fs e h
      exact ⟨k', tail, h1, by simp [objHasKey, h2]⟩
    · obtain ⟨e', -, he'⟩ := List.mem_map.mp h
      exact ⟨k, e'.1, by rw [← he'], by simp [objHasKey]⟩

theorem visitAnnArr_head_not_field : ∀ (i : Nat) (xs : SArr) (e : List Seg × RefInfo),
    e ∈ visitAnnArr i xs → ∀ (k0 : String) (tail : List Seg), e.1 ≠ Seg.field k0 :: tail
  | i, .nil, e, he => absurd he (by simp [visitAnnArr])
  | i, .cons x xs, e, he => by
    rw [visitAnnArr] at he
    rcases List.mem_append.mp he with h | h
    · obtain ⟨e', -, he'⟩ := List.mem_map.mp h
      intro k0 tail hcontra
      rw [← he'] at hcontra
      simp only [List.cons.injEq] at hcontra
      have h1 := hcontra.1
      unfold itemSeg at h1
      cases hkx : keyOf x with
      | none =>
        rw [hkx] at h1
        simp at h1
      | some kx =>
        rw [hkx] at h1
        simp at h1
    · exact visitAnnArr_head_not_field (i + 1) xs e h

theorem visitAnnArr_idx_ge : ∀ (i : Nat) (xs : SArr) (e : List Seg × RefInfo),
    e ∈ visitAnnArr i xs → ∀ (n : Nat) (tail : List Seg), e.1 = Seg.idx n :: tail → i ≤ n
  | i, .nil, e, he => absurd he (by simp [visitAnnArr])
  | i, .cons x xs, e, he => by
    rw [visitAnnArr] at he
    rcases List.mem_append.mp he with h | h
    · obtain ⟨e', -, he'⟩ := List.mem_map.mp h
      intro n tail hcontra
      rw [← he'] at hcontra
      simp only [List.cons.injEq] at hcontra
      have h1 := hcontra.1
      unfold itemSeg at h1
      cases hkx : keyOf x with
      | none =>
        rw [hkx] at h1
        simp only [Seg.idx.injEq] at h1
        omega
      | some kx =>
        rw [hkx] at h1
        simp at h1
    · intro n tail hn
      have := visitAnnArr_idx_ge (i + 1) xs e h n tail hn
      omega

theorem visitAnn_obj_head (fs : SObj) (e : List Seg × RefInfo) (he : e ∈ visitAnn (.obj fs)) :
    ∃ k0 tail, e.1 = Seg.field k0 :: tail := by
  rw [visitAnn] at he
  rcases List.mem_append.mp he with h | h
  · exact ⟨"asset", [], annHits_mem fs e h⟩
  · obtain ⟨k', tail, h1, -⟩ := visitAnnObjRev_key_mem fs e h
    exact ⟨k', tail, h1⟩

theorem itemSeg_set (i : Nat) (x : SValue) (rest : List Seg) (nv : SValue)
    (hrq : EndsFieldOk rest) : itemSeg i (setAtPath x rest nv) = itemSeg i x := by
  unfold itemSeg
  rw [keyOf_set x rest nv hrq]

theorem objHasKey_isSome : ∀ (fs : SObj) (k : String),
    objHasKey fs k = (getField fs k).isSome
  | .nil, k => rfl
  | .cons k' v fs, k => by
    have ih := objHasKey_isSome fs k
    by_cases hk : k' = k
    · simp [objHasKey, getField, hk]
    · simp [objHasKey, getField, hk, ih]

theorem annHits_eq_nil_of_no_asset : ∀ fs : SObj, getField fs "asset" = none →
    annHits fs = []
  | .nil, _ => rfl
  | .cons k v fs, h => by
    rw [getField] at h
    by_cases hk : k = "asset"
    · rw [if_pos hk] at h
      exact absurd h (by simp)
    · rw [if_neg hk] at h
      rw [annHits, if_neg hk]
      exact annHits_eq_nil_of_no_asset fs h

theorem setAtPath_arr_idx (xs : SArr) (i : Nat) (rest : List Seg) (nv : SValue) :
    setAtPath (.arr xs) (Seg.idx i :: rest) nv = .arr (setArrIdx xs i rest nv) := rfl

theorem setAtPath_arr_keyed (xs : SArr) (k : String) (rest : List Seg) (nv : SValue) :
    setAtPath (.arr xs) (Seg.keyed k :: rest) nv = .arr (setArrKeyed xs k rest nv) := rfl

theorem itemSeg_keyed_iff (i : Nat) (x : SValue) (k : String) :
    itemSeg i x = Seg.keyed k ↔ keyOf x = some k := by
  unfold itemSeg
  cases hkx : keyOf x with
  | none => simp
  | some k' => simp

theorem itemSeg_idx_imp (i n : Nat) (x : SValue) (tail : List Seg)
    (h : itemSeg i x = Seg.idx n) : n = i := by
  unfold itemSeg at h
  cases hkx : keyOf x with
  | none =>
    rw [hkx] at h
    simpa using h.symm
  | some k' =>
    rw [hkx] at h
    simp at h

mutual
theorem setAnn_v : ∀ (v : SValue) (q : List Seg) (nv : SValue), visitAnn nv = [] →
    refInfoOf nv = none → EndsFieldOk q →
    ∀ e ∈ visitAnn (setAtPath v q nv), e ∈ visitAnn v ∧ e.1 ≠ q
  | v, q, nv, hnva, hnvr, hq => by
    have hne : q ≠ [] := (EndsField_of_ok hq).ne_nil
    cases v with
    | null =>
      rw [setAtPath_null _ _ hne]
      intro e he
      rw [visitAnn] at he
      exact absurd he (List.not_mem_nil e)
    | bool b =>
      rw [setAtPath_bool _ _ _ hne]
      intro e he
      rw [visitAnn] at he
      exact absurd he (List.not_mem_nil e)
    | num n =>
      rw [setAtPath_num _ _ _ hne]
      intro e he
      rw [visitAnn] at he
      exact absurd he (List.not_mem_nil e)
    | str s =>
      rw [setAtPath_str _ _ _ hne]
      intro e he
      rw [visitAnn] at he
      exact absurd he (List.not_mem_nil e)
    | arr xs =>
      cases q with
      | nil => exact absurd rfl hne
      | cons seg rest =>
        cases seg with
        | field k =>
          rw [setAtPath_arr_field]
          intro e he
          rw [visitAnn] at he
          exact ⟨by rw [visitAnn]; exact he, visitAnnArr_head_not_field 0 xs e he k rest⟩
        | idx i =>
          have hrne : rest ≠ [] := by
            intro h0
            obtain ⟨k0, hk0⟩ := (EndsField_of_ok hq).head_field h0
            simp at hk0
          have hrq : EndsFieldOk rest := hq.tailEFO hrne
          rw [setAtPath_arr_idx]
          intro e he
          rw [visitAnn] at he
          have h := setAnn_arrIdx xs 0 i rest nv hnva hnvr hrq e he
          refine ⟨by rw [visitAnn]; exact h.1, ?_⟩
          have := h.2
          rwa [Nat.zero_add] at this
        | keyed k =>
          have hrne : rest ≠ [] := by
            intro h0
            obtain ⟨k0, hk0⟩ := (EndsField_of_ok hq).head_field h0
            simp at hk0
          have hrq : EndsFieldOk rest := hq.tailEFO hrne
          rw [setAtPath_arr_keyed]
          intro e he
          rw [visitAnn] at he
          have h := setAnn_arrKeyed xs 0 k rest nv hnva hnvr hrq e he
          exact ⟨by rw [visitAnn]; exact h.1, h.2⟩
    | obj fs =>
      cases q with
      | nil => exact absurd rfl hne
      | cons seg rest =>
        cases seg with
        | idx i =>
          rw [setAtPath_obj_idx]
          intro e he
          refine ⟨he, ?_⟩
          obtain ⟨k0, tail, hh⟩ := visitAnn_obj_head fs e he
          rw [hh]
          simp
        | keyed k =>
          rw [setAtPath_obj_keyed]
          intro e he
          refine ⟨he, ?_⟩
          obtain ⟨k0, tail, hh⟩ := visitAnn_obj_head fs e he
          rw [hh]
          simp
        | field k =>
          by_cases hk : objHasKey fs k = true
          · rw [setAtPath_obj_field_pos fs k rest nv hk]
            intro e he
            rw [visitAnn] at he
            rcases List.mem_append.mp he with h | h
            · by_cases hr : rest = []
              · subst hr
                by_cases hka : k = "asset"
                · subst hka
                  rw [annHits_setObjKey_asset_nil nv hnvr] at h
                  exact absurd h (List.not_mem_nil e)
                · rw [annHits_setObjKey_ne_asset k hka [] nv] at h
                  refine ⟨by rw [visitAnn]; exact List.mem_append.mpr (Or.inl h), ?_⟩
                  rw [annHits_mem fs e h]
                  intro hcontra
                  simp only [List.cons.injEq, Seg.field.injEq] at hcontra
                  exact hka hcontra.1.symm
              · have hrq : EndsFieldOk rest := hq.tailEFO hr
                rw [annHits_setObjKey_stable k rest nv hr hrq] at h
                refine ⟨by rw [visitAnn]; exact List.mem_append.mpr (Or.inl h), ?_⟩
                rw [annHits_mem fs e h]
                intro hcontra
                simp only [List.cons.injEq] at hcontra
                exact hr hcontra.2.symm
            · have h' := setAnn_objRev fs k rest nv hnva hnvr (fun hrne => hq.tailEFO hrne) e h
              exact ⟨by rw [visitAnn]; exact List.mem_append.mpr (Or.inr h'.1), h'.2⟩
          · by_cases hr : rest = []
            · subst hr
              obtain ⟨h1, h2, h3⟩ := EndsFieldOk.head_key hq rfl
              rw [setAtPath_obj_field_append fs k nv (by simpa using hk)]
              intro e he
              rw [visitAnn] at he
              rcases List.mem_append.mp he with h | h
              · rw [annHits_appendField k nv hnvr] at h
                refine ⟨by rw [visitAnn]; exact List.mem_append.mpr (Or.inl h), ?_⟩
                by_cases hka : k = "asset"
                · subst hka
                  exfalso
                  have hnone : getField fs "asset" = none := by
                    cases hg : getField fs "asset"
                    · rfl
                    · rw [objHasKey_isSome, hg] at hk
                      simp at hk
                  rw [annHits_eq_nil_of_no_asset fs hnone] at h
                  exact absurd h (List.not_mem_nil e)
                · rw [annHits_mem fs e h]
                  intro hcontra
                  simp only [List.cons.injEq, Seg.field.injEq] at hcontra
                  exact hka hcontra.1.symm
              · rw [visitAnnObjRev_appendField k nv hnva] at h
                refine ⟨by rw [visitAnn]; exact List.mem_append.mpr (Or.inr h), ?_⟩
                obtain ⟨k', tail, hh, hkey⟩ := visitAnnObjRev_key_mem fs e h
                rw [hh]
                intro hcontra
                simp only [List.cons.injEq, Seg.field.injEq] at hcontra
                rw [hcontra.1] at hkey
                rw [hkey] at hk
                exact hk rfl
            · rw [setAtPath_obj_field_miss fs k rest nv (by simpa using hk) hr]
              intro e he
              refine ⟨he, ?_⟩
              rw [visitAnn] at he
              rcases List.mem_append.mp he with h | h
              · rw [annHits_mem fs e h]
                intro hcontra
                simp only [List.cons.injEq] at hcontra
                exact hr hcontra.2.symm
              · obtain ⟨k', tail, hh, hkey⟩ := visitAnnObjRev_key_mem fs e h
                rw [hh]
                intro hcontra
                simp only [List.cons.injEq, Seg.field.injEq] at hcontra
                rw [hcontra.1] at hkey
                rw [hkey] at hk
                exact hk rfl

theorem setAnn_objRev : ∀ (fs : SObj) (k : String) (rest : List Seg) (nv : SValue),
    visitAnn nv = [] → refInfoOf nv = none → (rest ≠ [] → EndsFieldOk rest) →
    ∀ e ∈ visitAnnObjRev (setObjKey fs k rest nv),
      e ∈ visitAnnObjRev fs ∧ e.1 ≠ Seg.field k :: rest
  | .nil, k, rest, nv, _, _, _ => by
    intro e he
    rw [setObjKey, visitAnnObjRev] at he
    exact absurd he (List.not_mem_nil e)
  | .cons k' v fs, k, rest, nv, hnva, hnvr, hrest => by
    intro e he
    rw [setObjKey, visitAnnObjRev] at he
    rcases List.mem_append.mp he with h | h
    · have ih := setAnn_objRev fs k rest nv hnva hnvr hrest e h
      exact ⟨by rw [visitAnnObjRev]; exact List.mem_append.mpr (Or.inl ih.1), ih.2⟩
    · obtain ⟨e', he', heq⟩ := List.mem_map.mp h
      by_cases hkk : k' = k
      · rw [if_pos hkk] at he'
        by_cases hr : rest = []
        · subst hr
          rw [setAtPath_nil, hnva] at he'
          exact absurd he' (List.not_mem_nil e')
        · have hrq : EndsFieldOk rest := hrest hr
          have hv := setAnn_v v rest nv hnva hnvr hrq e' he'
          refine ⟨?_, ?_⟩
          · rw [visitAnnObjRev]
            refine List.mem_append.mpr (Or.inr ?_)
            rw [← heq]
            exact List.mem_map.mpr ⟨e', hv.1, rfl⟩
          · rw [← heq]
            intro hcontra
            simp only [List.cons.injEq] at hcontra
            exact hv.2 hcontra.2
      · rw [if_neg hkk] at he'
        refine ⟨?_, ?_⟩
        · rw [visitAnnObjRev]
          refine List.mem_append.mpr (Or.inr ?_)
          rw [← heq]
          exact List.mem_map.mpr ⟨e', he', rfl⟩
        · rw [← heq]
          intro hcontra
          simp only [List.cons.injEq, Seg.field.injEq] at hcontra
          exact hkk hcontra.1

theorem setAnn_arrIdx : ∀ (xs : SArr) (i j : Nat) (rest : List Seg) (nv : SValue),
    visitAnn nv = [] → refInfoOf nv = none → EndsFieldOk rest →
    ∀ e ∈ visitAnnArr i (setArrIdx xs j rest nv),
      e ∈ visitAnnArr i xs ∧ e.1 ≠ Seg.idx (i + j) :: rest
  | .nil, i, j, rest, nv, _, _, _ => by
    intro e he
    rw [setArrIdx, visitAnnArr] at he
    exact absurd he (List.not_mem_nil e)
  | .cons x xs, i, 0, rest, nv, hnva, hnvr, hrq => by
    intro e he
    rw [setArrIdx, visitAnnArr] at he
    rw [itemSeg_set i x rest nv hrq] at he
    rcases List.mem_append.mp he with h | h
    · obtain ⟨e', he', heq⟩ := List.mem_map.mp h
      have hv := setAnn_v x rest nv hnva hnvr hrq e' he'
      refine ⟨?_, ?_⟩
      · rw [visitAnnArr]
        refine List.mem_append.mpr (Or.inl ?_)
        rw [← heq]
        exact List.mem_map.mpr ⟨e', hv.1, rfl⟩
      · rw [← heq]
        intro hcontra
        simp only [List.cons.injEq] at hcontra
        cases hkx : keyOf x with
        | none =>
          have h1 := hcontra.1
          unfold itemSeg at h1
          rw [hkx] at h1
          simp only [Seg.idx.injEq] at h1
          exact hv.2 hcontra.2
        | some kx =>
          have h1 := hcontra.1
          unfold itemSeg at h1
          rw [hkx] at h1
          simp at h1
    · refine ⟨by rw [visitAnnArr]; exact List.mem_append.mpr (Or.inr h), ?_⟩
      intro hcontra
      have := visitAnnArr_idx_ge (i + 1) xs e h (i + 0) rest hcontra
      omega
  | .cons x xs, i, j + 1, rest, nv, hnva, hnvr, hrq => by
    intro e he
    rw [setArrIdx, visitAnnArr] at he
    rcases List.mem_append.mp he with h | h
    · refine ⟨by rw [visitAnnArr]; exact List.mem_append.mpr (Or.inl h), ?_⟩
      obtain ⟨e', he', heq⟩ := List.mem_map.mp h
      rw [← heq]
      intro hcontra
      simp only [List.cons.injEq] at hcontra
      have h1 := hcontra.1
      unfold itemSeg at h1
      cases hkx : keyOf x with
      | none =>
        rw [hkx] at h1
        simp only [Seg.idx.injEq] at h1
        omega
      | some kx =>
        rw [hkx] at h1
        simp at h1
    · have ih := setAnn_arrIdx xs (i + 1) j rest nv hnva hnvr hrq e h
      refine ⟨by rw [visitAnnArr]; exact List.mem_append.mpr (Or.inr ih.1), ?_⟩
      have harith : i + 1 + j = i + (j + 1) := by omega
      rw [harith] at ih
      exact ih.2

theorem setAnn_arrKeyed : ∀ (xs : SArr) (i : Nat) (k : String) (rest : List Seg) (nv : SValue),
    visitAnn nv = [] → refInfoOf nv = none → EndsFieldOk rest →
    ∀ e ∈ visitAnnArr i (setArrKeyed xs k rest nv),
      e ∈ visitAnnArr i xs ∧ e.1 ≠ Seg.keyed k :: rest
  | .nil, i, k, rest, nv, _, _, _ => by
    intro e he
    rw [setArrKeyed, visitAnnArr] at he
    exact absurd he (List.not_mem_nil e)
  | .cons x xs, i, k, rest, nv, hnva, hnvr, hrq => by
    intro e he
    rw [setArrKeyed, visitAnnArr] at he
    rcases List.mem_append.mp he with h | h
    · by_cases hkx : keyOf x = some k
      · rw [if_pos hkx, itemSeg_set i x rest nv hrq] at h
        obtain ⟨e', he', heq⟩ := List.mem_map.mp h
        have hv := setAnn_v x rest nv hnva hnvr hrq e' he'
        refine ⟨?_, ?_⟩
        · rw [visitAnnArr]
          refine List.mem_append.mpr (Or.inl ?_)
          rw [← heq]
          exact List.mem_map.mpr ⟨e', hv.1, rfl⟩
        · rw [← heq]
          intro hcontra
          simp only [List.cons.injEq] at hcontra
          exact hv.2 hcontra.2
      · rw [if_neg hkx] at h
        refine ⟨by rw [visitAnnArr]; exact List.mem_append.mpr (Or.inl h), ?_⟩
        obtain ⟨e', he', heq⟩ := List.mem_map.mp h
        rw [← heq]
        intro hcontra
        simp only [List.cons.injEq] at hcontra
        exact hkx ((itemSeg_keyed_iff i x k).mp hcontra.1)
    · have ih := setAnn_arrKeyed xs (i + 1) k rest nv hnva hnvr hrq e h
      exact ⟨by rw [visitAnnArr]; exact List.mem_append.mpr (Or.inr ih.1), ih.2⟩
end

/-- Applying a batch of set instructions left to right, in the order
the executor chains them onto one patch. -/
def applySets (v : SValue) (pairs : List (List Seg × SValue)) : SValue :=
  pairs.foldl (fun d p => setAtPath d p.1 p.2) v

theorem applySets_ann : ∀ (pairs : List (List Seg × SValue)) (v : SValue),
    (∀ p ∈ pairs, visitAnn p.2 = [] ∧ refInfoOf p.2 = none ∧ EndsFieldOk p.1) →
    ∀ e ∈ visitAnn (applySets v pairs), e ∈ visitAnn v ∧ ∀ p ∈ pairs, e.1 ≠ p.1
  | [], v, _, e, he => ⟨he, by simp⟩
  | (q, nv) :: pairs, v, hp, e, he => by
    have hhead := hp (q, nv) (List.mem_cons_self _ _)
    have htail : ∀ p ∈ pairs, visitAnn p.2 = [] ∧ refInfoOf p.2 = none ∧ EndsFieldOk p.1 :=
      fun p hpmem => hp p (List.mem_cons_of_mem _ hpmem)
    have hstep := applySets_ann pairs (setAtPath v q nv) htail e he
    have hset := setAnn_v v q nv hhead.1 hhead.2.1 hhead.2.2 e hstep.1
    refine ⟨hset.1, ?_⟩
    intro p hpmem
    rcases List.mem_cons.mp hpmem with h | h
    · rw [h]
      exact hset.2
    · exact hstep.2 p h

mutual
theorem visitAnn_path_shape : ∀ (v : SValue) (e : List Seg × RefInfo), e ∈ visitAnn v →
    ∃ q', e.1 = q' ++ [Seg.field "asset"]
  | .obj fs, e, he => by
    rw [visitAnn] at he
    rcases List.mem_append.mp he with h | h
    · exact ⟨[], annHits_mem fs e h⟩
    · exact visitAnnObjRev_path_shape fs e h
  | .arr xs, e, he => visitAnnArr_path_shape 0 xs e he
  | .null, e, he => absurd he (by rw [visitAnn]; exact List.not_mem_nil e)
  | .bool b, e, he => absurd he (by rw [visitAnn]; exact List.not_mem_nil e)
  | .num n, e, he => absurd he (by rw [visitAnn]; exact List.not_mem_nil e)
  | .str s, e, he => absurd he (by rw [visitAnn]; exact List.not_mem_nil e)

theorem visitAnnArr_path_shape : ∀ (i : Nat) (xs : SArr) (e : List Seg × RefInfo),
    e ∈ visitAnnArr i xs → ∃ q', e.1 = q' ++ [Seg.field "asset"]
  | i, .nil, e, he => absurd he (by rw [visitAnnArr]; exact List.not_mem_nil e)
  | i, .cons x xs, e, he => by
    rw [visitAnnArr] at he
    rcases List.mem_append.mp he with h | h
    · obtain ⟨e', he', heq⟩ := List.mem_map.mp h
      obtain ⟨q', hq'⟩ := visitAnn_path_shape x e' he'
      refine ⟨itemSeg i x :: q', ?_⟩
      rw [← heq]
      simp [hq']
    · exact visitAnnArr_path_shape (i + 1) xs e h

theorem visitAnnObjRev_path_shape : ∀ (fs : SObj) (e : List Seg × RefInfo),
    e ∈ visitAnnObjRev fs → ∃ q', e.1 = q' ++ [Seg.field "asset"]
  | .nil, e, he => absurd he (by rw [visitAnnObjRev]; exact List.not_mem_nil e)
  | .cons k v fs, e, he => by
    rw [visitAnnObjRev] at he
    rcases List.mem_append.mp he with h | h
    · exact visitAnnObjRev_path_shape fs e h
    · obtain ⟨e', he', heq⟩ := List.mem_map.mp h
      obtain ⟨q', hq'⟩ := visitAnn_path_shape v e' he'
      refine ⟨Seg.field k :: q', ?_⟩
      rw [← heq]
      simp [hq']
end

/-- The video-asset record of the source (sanity.videoAsset documents),
as projected by the asset query. -/
structure VideoAsset where
  _id : String
  media : Option SValue := none
  uploadId : Option String := none
  originalFilename : Option String := none
  size : Option Int := none
deriving Repr, DecidableEq

/-- A planned patch operation, as built by generatePatchOperations. -/
structure PatchOperation where
  documentId : Option String
  path : String
  oldReference : SValue
  newReference : SValue
deriving Repr, DecidableEq

/-- The oldReference object literal of the planner. -/
def refValue (r : String) : SValue :=
  .obj (.cons "_ref" (.str r) (.cons "_type" (.str "reference") .nil))

/-- The replacement value of the planner: a weak global document
reference carrying the given compound token. -/
def gdrValue (token : String) : SValue :=
  .obj (.cons "_type" (.str "globalDocumentReference")
    (.cons "_ref" (.str token) (.cons "_weak" (.bool true) .nil)))

/-- The compound token media-library:outer:inner. -/
def mlToken (libraryId innerId : String) : String :=
  "media-library:" ++ libraryId ++ ":" ++ innerId

/-- The _id of a document, as read by the planner (document._id).  The
store guarantees every document carries a string _id; a missing or
non-string _id is the JS undefined, modelled none. -/
def docIdOf (d : SValue) : Option String :=
  match d with
  | .obj fs =>
    match getField fs "_id" with
    | some (.str s) => some s
    | _ => none
  | _ => none

/-- The regex replace path.replace of the planner: when the path ends
in ".asset" that suffix becomes ".media", otherwise the path is
unchanged (in particular a bare top-level "asset" path is unchanged,
having no preceding dot). -/
def replaceMediaSuffix (s : String) : String :=
  if ".asset".data.isSuffixOf s.data then
    ⟨s.data.take (s.data.length - 6) ++ ".media".data⟩
  else s

/-- The Patch Planner: for every located asset path, one operation
replacing the asset reference with a weak global reference to the
instance, and one targeting the derived media path with a weak global
reference to the container.  none models the TypeError propagating out
of findAssetPaths. -/
def generatePatchOperations (document : SValue) (videoAsset : VideoAsset)
    (libraryId instanceId containerId : String) : Option (List PatchOperation) :=
  match findAssetPaths document (some videoAsset._id) with
  | none => none
  | some assetPaths =>
    some (assetPaths.flatMap fun path =>
      [{ documentId := docIdOf document, path := path,
         oldReference := refValue videoAsset._id,
         newReference := gdrValue (mlToken libraryId instanceId) },
       { documentId := docIdOf document, path := replaceMediaSuffix path,
         oldReference := refValue "",
         newReference := gdrValue (mlToken libraryId containerId) }])

/-- The segment-path counterpart of replaceMediaSuffix on located
paths: a located path always ends with the field segment "asset"; with
a parent the final segment becomes "media", a bare top-level path stays
itself. -/
def mediaSegPath (p : List Seg) : List Seg :=
  if p.length ≤ 1 then p else p.dropLast ++ [Seg.field "media"]

/-- The set instructions corresponding to the generated operations of
one document and one asset, in operation order. -/
def migratePairs (ps : List (List Seg)) (libraryId instanceId containerId : String) :
    List (List Seg × SValue) :=
  ps.flatMap fun p =>
    [(p, gdrValue (mlToken libraryId instanceId)),
     (mediaSegPath p, gdrValue (mlToken libraryId containerId))]

theorem visitAnn_gdrValue (token : String) : visitAnn (gdrValue token) = [] := rfl

theorem refInfoOf_gdrValue (token : String) : refInfoOf (gdrValue token) = none := rfl

/-- The rendering of one segment at a given position. -/
def renderSegAt (i : Nat) (seg : Seg) : String :=
  if startsBracket seg.render then seg.render
  else if i = 0 then seg.render else "." ++ seg.render

theorem renderPathAux_concat (seg : Seg) : ∀ (q' : List Seg) (i : Nat),
    renderPathAux i (q' ++ [seg]) = renderPathAux i q' ++ renderSegAt (i + q'.length) seg
  | [], i => by
    simp only [List.nil_append, renderPathAux, renderSegAt, List.length_nil, Nat.add_zero]
    rw [String.append_empty]
    rfl
  | s :: q', i => by
    have ih := renderPathAux_concat seg q' (i + 1)
    rw [List.cons_append]
    rw [show renderPathAux i (s :: (q' ++ [seg])) =
      renderSegAt i s ++ renderPathAux (i + 1) (q' ++ [seg]) from rfl]
    rw [ih]
    rw [show renderPathAux i (s :: q') = renderSegAt i s ++ renderPathAux (i + 1) q' from rfl]
    rw [String.append_assoc]
    have harith : i + 1 + q'.length = i + (s :: q').length := by
      simp only [List.length_cons]
      omega
    rw [harith]

theorem renderPath_concat (seg : Seg) (q' : List Seg) :
    renderPath (q' ++ [seg]) = renderPath q' ++ renderSegAt q'.length seg := by
  unfold renderPath
  rw [renderPathAux_concat seg q' 0, Nat.zero_add]

theorem renderSegAt_field_zero (k : String) (hk : startsBracket k = false) :
    renderSegAt 0 (Seg.field k) = k := by
  simp [renderSegAt, Seg.render, hk]

theorem renderSegAt_field_pos (k : String) (hk : startsBracket k = false) (n : Nat)
    (hn : n ≠ 0) : renderSegAt n (Seg.field k) = "." ++ k := by
  simp [renderSegAt, Seg.render, hk, hn]

theorem renderPath_concat_asset (q' : List Seg) (hq : q' ≠ []) :
    renderPath (q' ++ [Seg.field "asset"]) = renderPath q' ++ ".asset" := by
  rw [renderPath_concat, renderSegAt_field_pos "asset" (by decide) q'.length
    (by simpa using fun h => hq (List.length_eq_zero.mp h))]
  rfl

theorem renderPath_concat_media (q' : List Seg) (hq : q' ≠ []) :
    renderPath (q' ++ [Seg.field "media"]) = renderPath q' ++ ".media" := by
  rw [renderPath_concat, renderSegAt_field_pos "media" (by decide) q'.length
    (by simpa using fun h => hq (List.length_eq_zero.mp h))]
  rfl

theorem replaceMediaSuffix_append_asset (x : String) :
    replaceMediaSuffix (x ++ ".asset") = x ++ ".media" := by
  unfold replaceMediaSuffix
  have hdata : (x ++ ".asset").data = x.data ++ ".asset".data := String.data_append x ".asset"
  have hsuf : ".asset".data.isSuffixOf (x ++ ".asset").data = true := by
    rw [hdata, List.isSuffixOf_iff_suffix]
    exact List.suffix_append x.data ".asset".data
  rw [if_pos hsuf, hdata]
  have hlen : (x.data ++ ".asset".data).length - 6 = x.data.length := by
    simp [List.length_append]
  rw [hlen]
  have htake : (x.data ++ ".asset".data).take x.data.length = x.data := List.take_left x.data _
  rw [htake]
  apply String.ext
  simp [String.data_append]

theorem replaceMediaSuffix_render (q' : List Seg) :
    replaceMediaSuffix (renderPath (q' ++ [Seg.field "asset"])) =
      renderPath (mediaSegPath (q' ++ [Seg.field "asset"])) := by
  cases hq : q' with
  | nil => decide
  | cons s q'' =>
    have hne : q' ≠ [] := by rw [hq]; simp
    rw [← hq, renderPath_concat_asset q' hne, replaceMediaSuffix_append_asset]
    have hlen : ¬((q' ++ [Seg.field "asset"]).length ≤ 1) := by
      rw [hq]
      simp
    rw [mediaSegPath, if_neg hlen, List.dropLast_concat, renderPath_concat_media q' hne]

theorem mediaSegPath_ok (p0 : List Seg) (q' : List Seg) (hq' : p0 = q' ++ [Seg.field "asset"]) :
    EndsFieldOk (mediaSegPath p0) := by
  subst hq'
  by_cases hlen : (q' ++ [Seg.field "asset"]).length ≤ 1
  · rw [mediaSegPath, if_pos hlen]
    exact ⟨q', "asset", rfl, by decide, by decide, by decide⟩
  · rw [mediaSegPath, if_neg hlen, List.dropLast_concat]
    exact ⟨q', "media", rfl, by decide, by decide, by decide⟩

theorem migratePairs_ok (ps : List (List Seg)) (lib inst cont : String)
    (hshape : ∀ p0 ∈ ps, ∃ q', p0 = q' ++ [Seg.field "asset"]) :
    ∀ p ∈ migratePairs ps lib inst cont,
      visitAnn p.2 = [] ∧ refInfoOf p.2 = none ∧ EndsFieldOk p.1 := by
  intro p hp
  rw [migratePairs] at hp
  obtain ⟨p0, hp0, hpin⟩ := List.mem_flatMap.mp hp
  obtain ⟨q', hq'⟩ := hshape p0 hp0
  rcases List.mem_cons.mp hpin with h | h
  · subst h
    exact ⟨visitAnn_gdrValue _, refInfoOf_gdrValue _,
      ⟨q', "asset", hq', by decide, by decide, by decide⟩⟩
  · rcases List.mem_cons.mp h with h' | h'
    · subst h'
      exact ⟨visitAnn_gdrValue _, refInfoOf_gdrValue _, mediaSegPath_ok p0 q' hq'⟩
    · exact absurd h' (List.not_mem_nil p)

theorem mem_migratePairs_asset (ps : List (List Seg)) (lib inst cont : String)
    (p0 : List Seg) (hp0 : p0 ∈ ps) :
    (p0, gdrValue (mlToken lib inst)) ∈ migratePairs ps lib inst cont := by
  rw [migratePairs]
  exact List.mem_flatMap.mpr ⟨p0, hp0, by simp⟩

theorem migrate_clears_core (doc : SValue) (ps : List (List Seg)) (lib inst cont : String)
    (hshape : ∀ p0 ∈ ps, ∃ q', p0 = q' ++ [Seg.field "asset"]) :
    ∀ e ∈ visitAnn (applySets doc (migratePairs ps lib inst cont)),
      e ∈ visitAnn doc ∧ e.1 ∉ ps := by
  intro e he
  have h1 := applySets_ann (migratePairs ps lib inst cont) doc
    (migratePairs_ok ps lib inst cont hshape) e he
  exact ⟨h1.1, fun hmem => h1.2 _ (mem_migratePairs_asset ps lib inst cont e.1 hmem) rfl⟩

theorem migrate_clears (doc : SValue) (aid lib inst cont : String) (ps : List (List Seg))
    (h : findAssetSegPaths doc (some aid) = some ps) :
    findAssetSegPaths (applySets doc (migratePairs ps lib inst cont)) (some aid) = some [] := by
  by_cases ha : aid = ""
  · subst ha
    rw [findAssetSegPaths_empty_eq] at h
    have hps : ps = (visitAnn doc).map Prod.fst := (Option.some.inj h).symm
    have hshape : ∀ p0 ∈ ps, ∃ q', p0 = q' ++ [Seg.field "asset"] := by
      intro p0 hp0
      rw [hps] at hp0
      obtain ⟨e, he, heq⟩ := List.mem_map.mp hp0
      obtain ⟨q', hq'⟩ := visitAnn_path_shape doc e he
      exact ⟨q', heq ▸ hq'⟩
    rw [findAssetSegPaths_empty_eq]
    have hempty : visitAnn (applySets doc (migratePairs ps lib inst cont)) = [] := by
      rw [List.eq_nil_iff_forall_not_mem]
      intro e he
      have h1 := migrate_clears_core doc ps lib inst cont hshape e he
      apply h1.2
      rw [hps]
      exact List.mem_map.mpr ⟨e, h1.1, rfl⟩
    rw [hempty]
    rfl
  · rw [findAssetSegPaths_filter_eq doc aid ha] at h
    unfold annFilter at h
    by_cases hbad : ((visitAnn doc).any fun e => e.2 = RefInfo.badTarget) = true
    · rw [if_pos hbad] at h
      cases h
    · rw [if_neg hbad] at h
      have hps : ps = ((visitAnn doc).filter fun e => e.2 = RefInfo.strTarget aid).map Prod.fst :=
        (Option.some.inj h).symm
      have hshape : ∀ p0 ∈ ps, ∃ q', p0 = q' ++ [Seg.field "asset"] := by
        intro p0 hp0
        rw [hps] at hp0
        obtain ⟨e, he, heq⟩ := List.mem_map.mp hp0
        obtain ⟨q', hq'⟩ := visitAnn_path_shape doc e (List.mem_of_mem_filter he)
        exact ⟨q', heq ▸ hq'⟩
      rw [findAssetSegPaths_filter_eq _ aid ha]
      unfold annFilter
      have hnobad' : ¬(((visitAnn (applySets doc (migratePairs ps lib inst cont))).any
          fun e => e.2 = RefInfo.badTarget) = true) := by
        intro hcontra
        obtain ⟨e, he, hbe⟩ := List.any_eq_true.mp hcontra
        have h1 := migrate_clears_core doc ps lib inst cont hshape e he
        exact hbad (List.any_eq_true.mpr ⟨e, h1.1, hbe⟩)
      rw [if_neg hnobad']
      have hfil : ((visitAnn (applySets doc (migratePairs ps lib inst cont))).filter
          fun e => e.2 = RefInfo.strTarget aid) = [] := by
        rw [List.filter_eq_nil]
        intro e he hstr
        have h1 := migrate_clears_core doc ps lib inst cont hshape e he
        apply h1.2
        rw [hps]
        exact List.mem_map.mpr ⟨e, List.mem_filter.mpr ⟨h1.1, hstr⟩, rfl⟩
      rw [hfil]
      rfl

theorem generatePatchOperations_eq (doc : SValue) (va : VideoAsset)
    (lib inst cont : String) (ps : List (List Seg))
    (h : findAssetSegPaths doc (some va._id) = some ps) :
    generatePatchOperations doc va lib inst cont = some (ps.flatMap fun p =>
      [{ documentId := docIdOf doc, path := renderPath p,
         oldReference := refValue va._id,
         newReference := gdrValue (mlToken lib inst) },
       { documentId := docIdOf doc, path := replaceMediaSuffix (renderPath p),
         oldReference := refValue "",
         newReference := gdrValue (mlToken lib cont) }]) := by
  unfold generatePatchOperations findAssetPaths
  rw [h]
  simp only [Option.map_some']
  congr 1
  clear h
  induction ps with
  | nil => rfl
  | cons p ps ih =>
    simp only [List.map_cons, List.flatMap_cons, ih]

/-- Accumulating worker of jsSplit: the current piece is collected in
reverse. -/
def jsSplitAux (sep : Char) : List Char → List Char → List String
  | [], acc => [⟨acc.reverse⟩]
  | c :: cs, acc =>
    if c = sep then ⟨acc.reverse⟩ :: jsSplitAux sep cs []
    else jsSplitAux sep cs (c :: acc)

/-- JS String.prototype.split with a single-character separator, as the
parser uses reference.split(":"). -/
def jsSplit (s : String) (sep : Char) : List String := jsSplitAux sep s.data []

/-- The parser of global document reference tokens.  A reference object
with type tag "reference" is first replaced by its _ref member; the
result must be a truthy string of exactly three colon-separated parts
whose first part is "media-library".  The JS source would throw a
TypeError on a null argument (the in operator); every call site guards
the argument with a truthiness check first, so the model returns none
there. -/
def parseMediaReference (reference : SValue) : Option (String × String) :=
  let r : Option SValue :=
    match reference with
    | .obj fs =>
      if getField fs "_type" = some (.str "reference") then getField fs "_ref"
      else some reference
    | v => some v
  match r with
  | some (.str s) =>
    if s = "" then none
    else
      match jsSplit s ':' with
      | [p0, p1, p2] => if p0 = "media-library" then some (p1, p2) else none
      | _ => none
  | _ => none

/-- The registry entry returned by the media-library query: the
instance document and, when found, the _id of its parent container
(the sanity.asset whose currentVersion points back at the instance). -/
structure MediaLibraryAsset where
  _id : String
  container : Option String := none
deriving Repr, DecidableEq

/-- The Reference Resolver.  The external registry query (a network
fetch against the media library, scoped to the parsed library id) is
modelled by the oracle argument registry: registry libraryId assetId is
the query result, none when the instance does not resolve.  All three
failure modes collapse to none, exactly as the source returns null. -/
def getMediaLibraryAssetInfo (registry : String → String → Option MediaLibraryAsset)
    (videoAsset : VideoAsset) : Option (String × String × String) :=
  match videoAsset.media with
  | none => none
  | some m =>
    if jsTruthy m = false then none
    else
      match parseMediaReference m with
      | none => none
      | some (libraryId, instanceId) =>
        match registry libraryId instanceId with
        | none => none
        | some result =>
          match result.container with
          | none => none
          | some containerId => some (libraryId, instanceId, containerId)

/-- The reason main logs when the resolver returns null (the verbose
diagnostic branch re-derives it from the record). -/
inductive SkipReason where
  | noMediaField : SkipReason
  | invalidFormat : SkipReason
  | lookupFailed : SkipReason
deriving Repr, DecidableEq

/-- The diagnostic classification of the caller: no media field when
the record has no truthy media value, invalid format when re-parsing
fails, otherwise a failed registry lookup. -/
def classifyFailure (videoAsset : VideoAsset) : SkipReason :=
  match videoAsset.media with
  | none => .noMediaField
  | some m =>
    if jsTruthy m = false then .noMediaField
    else
      match parseMediaReference m with
      | none => .invalidFormat
      | some _ => .lookupFailed

/-- The reference target a parse inspects: the _ref string of a
reference-tagged object, or the input itself when it is a string. -/
def refTargetOf (reference : SValue) : Option String :=
  match reference with
  | .obj fs =>
    if getField fs "_type" = some (.str "reference") then
      match getField fs "_ref" with
      | some (.str s) => some s
      | _ => none
    else none
  | .str s => some s
  | _ => none

/-- One log line of the Patch Executor. -/
inductive LogLine where
  | preview (documentId : Option String) (ops : List PatchOperation) : LogLine
  | patched (documentId : Option String) (numOps : Nat) : LogLine
  | failed (documentId : Option String) : LogLine
deriving Repr, DecidableEq

/-- The document a log line speaks about. -/
def LogLine.docId : LogLine → Option String
  | .preview d _ => d
  | .patched d _ => d
  | .failed d => d

/-- One step of the Map grouping of applyPatches: append the operation
to its document group, or open a new group at the end (Map insertion
order is first-occurrence order). -/
def insertOp (groups : List (Option String × List PatchOperation)) (op : PatchOperation) :
    List (Option String × List PatchOperation) :=
  if groups.any (fun g => g.1 = op.documentId) then
    groups.map fun g => if g.1 = op.documentId then (g.1, g.2 ++ [op]) else g
  else groups ++ [(op.documentId, [op])]

/-- The grouping loop of applyPatches. -/
def groupByDocument (operations : List PatchOperation) :
    List (Option String × List PatchOperation) :=
  operations.foldl insertOp []

/-- The per-group loop of applyPatches over an abstract store state.
The store transaction (vendor client code) is the oracle commit: some
new state on success, none when the commit raises, in which case the
state is unchanged (the store applies a transaction atomically) and the
error is caught and logged with the document id. -/
def applyLoop {σ : Type} (commit : σ → Option String → List PatchOperation → Option σ)
    (dryRun : Bool) : List (Option String × List PatchOperation) → σ → σ × List LogLine
  | [], st => (st, [])
  | (documentId, docOperations) :: rest, st =>
    if dryRun then
      let r := applyLoop commit dryRun rest st
      (r.1, .preview documentId docOperations :: r.2)
    else
      match commit st documentId docOperations with
      | some st1 =>
        let r := applyLoop commit dryRun rest st1
        (r.1, .patched documentId docOperations.length :: r.2)
      | none =>
        let r := applyLoop commit dryRun rest st
        (r.1, .failed documentId :: r.2)

/-- The Patch Executor: group the flat operation list by document id,
then per document either log a preview (dry run) or submit one
transaction carrying all of that document's set operations. -/
def applyPatches {σ : Type} (commit : σ → Option String → List PatchOperation → Option σ)
    (operations : List PatchOperation) (dryRun : Bool) (st : σ) : σ × List LogLine :=
  applyLoop commit dryRun (groupByDocument operations) st

/-- Substring test of JS String.prototype.includes. -/
def strContains (s pat : String) : Bool :=
  s.data.tails.any fun t => pat.data.isPrefixOf t

/-- Summary count: total operations. -/
def totalOperations (operations : List PatchOperation) : Nat :=
  operations.length

/-- Summary count: new Set(map documentId).size, the number of
distinct target documents. -/
def uniqueDocuments (operations : List PatchOperation) : Nat :=
  (operations.map (fun op => op.documentId)).dedup.length

/-- Summary count: operations whose path contains the substring
"asset". -/
def assetOpsCount (operations : List PatchOperation) : Nat :=
  (operations.filter fun op => strContains op.path "asset").length

/-- Summary count: operations whose path contains the substring
"media". -/
def mediaOpsCount (operations : List PatchOperation) : Nat :=
  (operations.filter fun op => strContains op.path "media").length

theorem insertOp_keys (acc : List (Option String × List PatchOperation))
    (op : PatchOperation) :
    (insertOp acc op).map Prod.fst =
      if op.documentId ∈ acc.map Prod.fst then acc.map Prod.fst
      else acc.map Prod.fst ++ [op.documentId] := by
  unfold insertOp
  by_cases h : acc.any (fun g => g.1 = op.documentId) = true
  · rw [if_pos h]
    have hmem : op.documentId ∈ acc.map Prod.fst := by
      obtain ⟨g, hg, he⟩ := List.any_eq_true.mp h
      exact List.mem_map.mpr ⟨g, hg, by simpa using he⟩
    rw [if_pos hmem, List.map_map]
    apply List.map_congr_left
    intro g hg
    by_cases hgd : g.1 = op.documentId <;> simp [hgd]
  · rw [if_neg h]
    have hmem : op.documentId ∉ acc.map Prod.fst := by
      intro hcontra
      obtain ⟨g, hg, he⟩ := List.mem_map.mp hcontra
      exact h (List.any_eq_true.mpr ⟨g, hg, by simpa using he⟩)
    rw [if_neg hmem]
    simp

theorem groupByDocument_concat (ops : List PatchOperation) (op : PatchOperation) :
    groupByDocument (ops ++ [op]) = insertOp (groupByDocument ops) op := by
  unfold groupByDocument
  rw [List.foldl_append]
  rfl

theorem groupByDocument_spec (ops : List PatchOperation) :
    ((groupByDocument ops).map Prod.fst).Nodup ∧
    (∀ g ∈ groupByDocument ops, g.2 = ops.filter (fun op => op.documentId = g.1)) ∧
    (∀ op ∈ ops, op.documentId ∈ (groupByDocument ops).map Prod.fst) := by
  induction ops using List.reverseRecOn with
  | nil =>
    refine ⟨by simp [groupByDocument], ?_, by simp⟩
    intro g hg
    simp [groupByDocument] at hg
  | append_singleton ops op ih =>
    obtain ⟨hnd, hcontent, hcover⟩ := ih
    rw [groupByDocument_concat]
    by_cases hmem : op.documentId ∈ (groupByDocument ops).map Prod.fst
    · have hkeys : (insertOp (groupByDocument ops) op).map Prod.fst =
          (groupByDocument ops).map Prod.fst := by
        rw [insertOp_keys, if_pos hmem]
      have hany : (groupByDocument ops).any (fun g => g.1 = op.documentId) = true := by
        obtain ⟨g, hg, he⟩ := List.mem_map.mp hmem
        exact List.any_eq_true.mpr ⟨g, hg, by simp [he]⟩
      refine ⟨hkeys ▸ hnd, ?_, ?_⟩
      · intro g' hg'
        rw [insertOp, if_pos hany] at hg'
        obtain ⟨g, hg, he⟩ := List.mem_map.mp hg'
        by_cases hgd : g.1 = op.documentId
        · rw [if_pos hgd] at he
          rw [← he]
          simp only [List.filter_append]
          rw [← hcontent g hg]
          have : ([op].filter fun op' => op'.documentId = g.1) = [op] := by
            simp [hgd.symm]
          simp [this]
        · rw [if_neg hgd] at he
          rw [← he]
          simp only [List.filter_append]
          rw [← hcontent g hg]
          have : ([op].filter fun op' => op'.documentId = g.1) = [] := by
            simp only [List.filter_cons, List.filter_nil]
            have : (decide (op.documentId = g.1)) = false := by
              simp only [decide_eq_false_iff_not]
              intro hcontra
              exact hgd hcontra.symm
            simp [this]
          simp [this]
      · intro op' hop'
        rcases List.mem_append.mp hop' with h' | h'
        · rw [hkeys]
          exact hcover op' h'
        · rw [hkeys]
          rcases List.mem_singleton.mp h' with rfl
          exact hmem
    · have hany : ¬((groupByDocument ops).any (fun g => g.1 = op.documentId) = true) := by
        intro hcontra
        obtain ⟨g, hg, he⟩ := List.any_eq_true.mp hcontra
        exact hmem (List.mem_map.mpr ⟨g, hg, by simpa using he⟩)
      have hins : insertOp (groupByDocument ops) op =
          groupByDocument ops ++ [(op.documentId, [op])] := by
        rw [insertOp, if_neg hany]
      refine ⟨?_, ?_, ?_⟩
      · rw [insertOp_keys, if_neg hmem]
        exact hnd.append (List.nodup_singleton _)
          (by rwa [List.disjoint_singleton])
      · intro g' hg'
        rw [hins] at hg'
        rcases List.mem_append.mp hg' with h' | h'
        · rw [hcontent g' h']
          simp only [List.filter_append]
          have : ([op].filter fun op' => op'.documentId = g'.1) = [] := by
            simp only [List.filter_cons, List.filter_nil]
            have hne : (decide (op.documentId = g'.1)) = false := by
              simp only [decide_eq_false_iff_not]
              intro hcontra
              apply hmem
              rw [hcontra]
              exact List.mem_map.mpr ⟨g', h', rfl⟩
            simp [hne]
          simp [this]
        · rcases List.mem_singleton.mp h' with rfl
          simp only [List.filter_append]
          have h1 : (ops.filter fun op' => op'.documentId = op.documentId) = [] := by
            rw [List.filter_eq_nil_iff]
            intro op' hop' hcontra
            apply hmem
            have := hcover op' hop'
            rwa [show op'.documentId = op.documentId from by simpa using hcontra] at this
          have h2 : ([op].filter fun op' => op'.documentId = op.documentId) = [op] := by
            simp
          rw [h1, h2]
          rfl
      · intro op' hop'
        rw [hins, List.map_append]
        rcases List.mem_append.mp hop' with h' | h'
        · exact List.mem_append.mpr (Or.inl (hcover op' h'))
        · rcases List.mem_singleton.mp h' with rfl
          exact List.mem_append.mpr (Or.inr (by simp))

theorem applyLoop_dryRun {σ : Type}
    (commit : σ → Option String → List PatchOperation → Option σ) :
    ∀ (groups : List (Option String × List PatchOperation)) (st : σ),
      applyLoop commit true groups st =
        (st, groups.map fun g => LogLine.preview g.1 g.2)
  | [], st => rfl
  | (d, dops) :: rest, st => by
    rw [applyLoop, if_pos rfl]
    rw [applyLoop_dryRun commit rest st]
    rfl

theorem applyLoop_docIds {σ : Type}
    (commit : σ → Option String → List PatchOperation → Option σ) :
    ∀ (groups : List (Option String × List PatchOperation)) (st : σ),
      ((applyLoop commit false groups st).2).map LogLine.docId = groups.map Prod.fst
  | [], st => rfl
  | (d, dops) :: rest, st => by
    rw [applyLoop]
    simp only [if_neg (by simp : ¬(false = true))]
    cases hc : commit st d dops with
    | some st1 =>
      simp only [List.map_cons]
      rw [applyLoop_docIds commit rest st1]
      rfl
    | none =>
      simp only [List.map_cons]
      rw [applyLoop_docIds commit rest st]
      rfl

theorem applyLoop_allFail {σ : Type}
    (commit : σ → Option String → List PatchOperation → Option σ)
    (hfail : ∀ a b c, commit a b c = none) :
    ∀ (groups : List (Option String × List PatchOperation)) (st : σ),
      applyLoop commit false groups st = (st, groups.map fun g => LogLine.failed g.1)
  | [], st => rfl
  | (d, dops) :: rest, st => by
    rw [applyLoop]
    simp only [if_neg (by simp : ¬(false = true)), hfail st d dops]
    rw [applyLoop_allFail commit hfail rest st]
    rfl

theorem length_filter_or_and {α : Type} (p q : α → Bool) (l : List α) :
    (l.filter p).length + (l.filter q).length =
      (l.filter fun a => p a || q a).length + (l.filter fun a => p a && q a).length := by
  induction l with
  | nil => rfl
  | cons a l ih =>
    simp only [List.filter_cons]
    cases hp : p a <;> cases hq : q a <;> simp [hp, hq] <;> omega

theorem strContains_iff (s pat : String) :
    strContains s pat = true ↔ pat.data <:+: s.data := by
  unfold strContains
  rw [List.any_eq_true]
  constructor
  · rintro ⟨t, ht, hp⟩
    rw [List.mem_tails] at ht
    exact List.infix_iff_prefix_suffix.mpr ⟨t, List.isPrefixOf_iff_prefix.mp hp, ht⟩
  · intro h
    obtain ⟨t, hp, ht⟩ := List.infix_iff_prefix_suffix.mp h
    refine ⟨t, ?_, List.isPrefixOf_iff_prefix.mpr hp⟩
    rw [List.mem_tails]
    exact ht

theorem strContains_append_right (x y pat : String) (h : strContains y pat = true) :
    strContains (x ++ y) pat = true := by
  rw [strContains_iff] at h ⊢
  rw [String.data_append]
  exact h.trans (List.suffix_append x.data y.data).isInfix

theorem renderPath_asset_contains (q' : List Seg) :
    strContains (renderPath (q' ++ [Seg.field "asset"])) "asset" = true := by
  cases hq : q' with
  | nil => decide
  | cons s q'' =>
    rw [← hq, renderPath_concat_asset q' (by rw [hq]; simp)]
    exact strContains_append_right _ ".asset" "asset" (by decide)

theorem mediaSuffix_contains (q' : List Seg) :
    strContains (replaceMediaSuffix (renderPath (q' ++ [Seg.field "asset"]))) "asset" = true ∨
    strContains (replaceMediaSuffix (renderPath (q' ++ [Seg.field "asset"]))) "media" = true := by
  cases hq : q' with
  | nil => left; decide
  | cons s q'' =>
    right
    rw [← hq, renderPath_concat_asset q' (by rw [hq]; simp), replaceMediaSuffix_append_asset]
    exact strContains_append_right _ ".media" "media" (by decide)

theorem findAssetSegPaths_shape (doc : SValue) (t : String) (ps : List (List Seg))
    (h : findAssetSegPaths doc (some t) = some ps) :
    ∀ p ∈ ps, ∃ q', p = q' ++ [Seg.field "asset"] := by
  by_cases ht : t = ""
  · subst ht
    rw [findAssetSegPaths_empty_eq] at h
    have hps : ps = (visitAnn doc).map Prod.fst := (Option.some.inj h).symm
    intro p hp
    rw [hps] at hp
    obtain ⟨e, he, heq⟩ := List.mem_map.mp hp
    obtain ⟨q', hq'⟩ := visitAnn_path_shape doc e he
    exact ⟨q', heq ▸ hq'⟩
  · rw [findAssetSegPaths_filter_eq doc t ht] at h
    unfold annFilter at h
    by_cases hbad : ((visitAnn doc).any fun e => e.2 = RefInfo.badTarget) = true
    · rw [if_pos hbad] at h
      cases h
    · rw [if_neg hbad] at h
      have hps : ps = ((visitAnn doc).filter fun e => e.2 = RefInfo.strTarget t).map Prod.fst :=
        (Option.some.inj h).symm
      intro p hp
      rw [hps] at hp
      obtain ⟨e, he, heq⟩ := List.mem_map.mp hp
      obtain ⟨q', hq'⟩ := visitAnn_path_shape doc e (List.mem_of_mem_filter he)
      exact ⟨q', heq ▸ hq'⟩

theorem jsSplit_empty : jsSplit "" ':' = [""] := rfl

theorem parse_via_target (v : SValue) :
    parseMediaReference v =
      match refTargetOf v with
      | some s =>
        if s = "" then none
        else
          match jsSplit s ':' with
          | [p0, p1, p2] => if p0 = "media-library" then some (p1, p2) else none
          | _ => none
      | none => none := by
  cases v with
  | obj fs =>
    by_cases ht : getField fs "_type" = some (.str "reference")
    · simp only [parseMediaReference, refTargetOf, if_pos ht]
      cases hr : getField fs "_ref" with
      | none => rfl
      | some w => cases w <;> rfl
    · simp only [parseMediaReference, refTargetOf, if_neg ht]
  | str s => rfl
  | null => rfl
  | bool b => rfl
  | num n => rfl
  | arr xs => rfl

theorem parseMediaReference_isSome_iff (v : SValue) :
    (parseMediaReference v).isSome = true ↔
      ∃ s p1 p2, refTargetOf v = some s ∧ jsSplit s ':' = ["media-library", p1, p2] := by
  rw [parse_via_target]
  cases hrt : refTargetOf v with
  | none => simp
  | some s =>
    have hsimp : (∃ s1 p1 p2, (some s : Option String) = some s1 ∧
        jsSplit s1 ':' = ["media-library", p1, p2]) ↔
        ∃ p1 p2, jsSplit s ':' = ["media-library", p1, p2] := by
      constructor
      · rintro ⟨s1, p1, p2, hss, hsp⟩
        obtain rfl : s = s1 := Option.some.inj hss
        exact ⟨p1, p2, hsp⟩
      · rintro ⟨p1, p2, hsp⟩
        exact ⟨s, p1, p2, rfl, hsp⟩
    rw [hsimp]
    show (if s = ""
        then (none : Option (String × String))
        else match jsSplit s ':' with
          | [p0, p1, p2] => if p0 = "media-library" then some (p1, p2) else none
          | _ => none).isSome = true ↔
      ∃ p1 p2, jsSplit s ':' = ["media-library", p1, p2]
    by_cases hs : s = ""
    · subst hs
      rw [if_pos rfl]
      simp [jsSplit_empty]
    · rw [if_neg hs]
      cases h3 : jsSplit s ':' with
      | nil => simp [h3]
      | cons p0 t0 =>
        cases t0 with
        | nil => simp [h3]
        | cons p1 t1 =>
          cases t1 with
          | nil => simp [h3]
          | cons p2 t2 =>
            cases t2 with
            | nil =>
              by_cases hp0 : p0 = "media-library"
              · subst hp0
                simp
              · refine iff_of_false (by simp [hp0]) ?_
                rintro ⟨x, y, hxy⟩
                exact hp0 (List.cons.inj hxy).1
            | cons p3 t3 => simp [h3]

theorem flatMap_pairs_length {α β : Type} (f g : α → β) (l : List α) :
    (l.flatMap fun a => [f a, g a]).length = 2 * l.length := by
  induction l with
  | nil => rfl
  | cons a l ih =>
    simp only [List.flatMap_cons, List.length_append, List.length_cons, ih]
    simp only [List.length_nil, List.length_cons]
    omega

theorem migratePairs_render (d : Option String) (a : String)
    (ps : List (List Seg)) (lib inst cont : String)
    (hshape : ∀ p ∈ ps, ∃ q', p = q' ++ [Seg.field "asset"]) :
    ((ps.flatMap fun p =>
      [({ documentId := d, path := renderPath p,
          oldReference := refValue a,
          newReference := gdrValue (mlToken lib inst) } : PatchOperation),
       ({ documentId := d, path := replaceMediaSuffix (renderPath p),
          oldReference := refValue "",
          newReference := gdrValue (mlToken lib cont) } : PatchOperation)]).map
        fun op => (op.path, op.newReference)) =
      (migratePairs ps lib inst cont).map fun pr => (renderPath pr.1, pr.2) := by
  induction ps with
  | nil => rfl
  | cons p ps ih =>
    obtain ⟨q', hq'⟩ := hshape p (List.mem_cons_self p ps)
    have hkey : replaceMediaSuffix (renderPath p) = renderPath (mediaSegPath p) := by
      rw [hq']
      exact replaceMediaSuffix_render q'
    have ihtail := ih fun p0 hp0 => hshape p0 (List.mem_cons_of_mem p hp0)
    simp only [migratePairs, List.flatMap_cons, List.map_append, List.map_cons, List.map_nil]
      at ihtail ⊢
    rw [hkey, ihtail]

/-- A reference object pointing at the given target. -/
def refTo (t : String) : SValue :=
  .obj (.cons "_type" (.str "reference") (.cons "_ref" (.str t) .nil))

/-- A document whose only asset reference sits at the top-level field
"asset". -/
def docTopAsset (i t : String) : SValue :=
  .obj (.cons "_id" (.str i) (.cons "asset" (refTo t) .nil))

/-- A document whose asset reference sits under the field "video". -/
def docNested : SValue :=
  .obj (.cons "_id" (.str "dW")
    (.cons "video" (.obj (.cons "asset" (refTo "vidW") .nil)) .nil))

/-- The video-asset record matching docNested. -/
def vaW : VideoAsset := ⟨"vidW", none, none, none, none⟩

/-- C10: the Reference Locator is a deterministic pure function: equal
document and filter inputs give the identical path list, and the stack
loop of the source computes exactly the canonical recursive depth-first
traversal (visit), so the emission order is the fixed depth-first order
of the document. -/
theorem claim10_deterministic (doc1 doc2 : SValue) (f1 f2 : Option String)
    (h1 : doc1 = doc2) (h2 : f1 = f2) :
    findAssetPaths doc1 f1 = findAssetPaths doc2 f2 ∧
    findAssetPaths doc1 f1 = (visit f1 doc1).map fun l => l.map renderPath := by
  subst h1
  subst h2
  constructor
  · rfl
  · unfold findAssetPaths
    rw [findAssetSegPaths_eq_visit]

theorem claim10_witness :
    findAssetPaths docNested (some "vidW") = findAssetPaths docNested (some "vidW") ∧
    findAssetPaths docNested (some "vidW") =
      (visit (some "vidW") docNested).map fun l => l.map renderPath :=
  claim10_deterministic docNested docNested (some "vidW") (some "vidW") rfl rfl

/-- C7: in dry-run mode the executor never consults the commit oracle:
for every store state the result state is the input state unchanged,
the log is exactly one preview line per document group, and the whole
result is independent of the commit function. -/
theorem claim7_preview {σ : Type} (commit : σ → Option String → List PatchOperation → Option σ)
    (operations : List PatchOperation) (st : σ) :
    applyPatches commit operations true st =
      (st, (groupByDocument operations).map fun g => LogLine.preview g.1 g.2) ∧
    ∀ commit2 : σ → Option String → List PatchOperation → Option σ,
      applyPatches commit operations true st = applyPatches commit2 operations true st := by
  constructor
  · unfold applyPatches
    exact applyLoop_dryRun commit (groupByDocument operations) st
  · intro commit2
    unfold applyPatches
    rw [applyLoop_dryRun commit (groupByDocument operations) st,
      applyLoop_dryRun commit2 (groupByDocument operations) st]

/-- C8: in apply mode the executor groups the operations by document id
(one group per distinct id, carrying exactly that document's operations
in order), submits one transaction per group, and a failing transaction
does not abort the rest: whatever the commit oracle does, every group
still yields its own log line, and when every commit fails the state is
unchanged and every document is logged as failed. -/
theorem claim8_apply {σ : Type} (commit : σ → Option String → List PatchOperation → Option σ)
    (operations : List PatchOperation) (st : σ) :
    ((groupByDocument operations).map Prod.fst).Nodup ∧
    (∀ g ∈ groupByDocument operations,
      g.2 = operations.filter fun op => op.documentId = g.1) ∧
    (∀ op ∈ operations, op.documentId ∈ (groupByDocument operations).map Prod.fst) ∧
    (∀ (commit2 : σ → Option String → List PatchOperation → Option σ) (st2 : σ),
      ((applyPatches commit2 operations false st2).2).map LogLine.docId =
        (groupByDocument operations).map Prod.fst) ∧
    applyPatches (fun _ _ _ => (none : Option σ)) operations false st =
      (st, (groupByDocument operations).map fun g => LogLine.failed g.1) := by
  obtain ⟨h1, h2, h3⟩ := groupByDocument_spec operations
  refine ⟨h1, h2, h3, ?_, ?_⟩
  · intro commit2 st2
    unfold applyPatches
    exact applyLoop_docIds commit2 (groupByDocument operations) st2
  · unfold applyPatches
    exact applyLoop_allFail (fun _ _ _ => none) (fun _ _ _ => rfl)
      (groupByDocument operations) st

/-- C6: parseMediaReference succeeds exactly when the reference target
is a string splitting at colons into exactly three parts with first
part "media-library"; the two-part token and the wrong-kind token both
fail and are classified as the malformed-token case, which is a
different classification from the absent-media case. -/
theorem claim6_parse (v : SValue) :
    ((parseMediaReference v).isSome = true ↔
      ∃ s p1 p2, refTargetOf v = some s ∧ jsSplit s ':' = ["media-library", p1, p2]) ∧
    parseMediaReference (.str "media-library:x") = none ∧
    parseMediaReference (.str "other-kind:x:y") = none ∧
    parseMediaReference (.str "media-library:a:b") = some ("a", "b") ∧
    classifyFailure ⟨"v1", some (refTo "media-library:x"), none, none, none⟩ =
      SkipReason.invalidFormat ∧
    classifyFailure ⟨"v2", some (refTo "other-kind:x:y"), none, none, none⟩ =
      SkipReason.invalidFormat ∧
    classifyFailure ⟨"v3", none, none, none, none⟩ = SkipReason.noMediaField ∧
    SkipReason.invalidFormat ≠ SkipReason.noMediaField :=
  ⟨parseMediaReference_isSome_iff v, by decide, by decide, by decide, by decide,
    by decide, by decide, by decide⟩

/-- A document whose top-level asset field is reference-tagged but
carries a numeric _ref. -/
def docBadRef : SValue :=
  .obj (.cons "asset" (.obj (.cons "_type" (.str "reference")
    (.cons "_ref" (.num 7) .nil))) .nil)

/-- A document holding one asset reference to target "T" under field a
and one to target "T2" under field b. -/
def docTwoTargets : SValue :=
  .obj (.cons "a" (.obj (.cons "asset" (refTo "T") .nil))
    (.cons "b" (.obj (.cons "asset" (refTo "T2") .nil)) .nil))

/-- C5 (amended): over documents none of whose asset references
carries a bad (non-string, non-nullish) target, the Locator with a
non-empty filter t returns exactly the rendered paths of the
asset-keyed reference-tagged positions whose stripped target equals t,
and without a filter it returns all such positions; with a bad target
present the source instead throws. -/
theorem claim5_locator (doc : SValue) (t : String) (ht : t ≠ "")
    (hok : ∀ e ∈ visitAnn doc, e.2 ≠ RefInfo.badTarget) :
    findAssetPaths doc (some t) =
      some ((((visitAnn doc).filter fun e => e.2 = RefInfo.strTarget t).map Prod.fst).map
        renderPath) ∧
    findAssetPaths doc none = some (((visitAnn doc).map Prod.fst).map renderPath) := by
  constructor
  · unfold findAssetPaths
    rw [findAssetSegPaths_filter_eq doc t ht]
    unfold annFilter
    rw [if_neg ?hno]
    case hno =>
      intro hcontra
      obtain ⟨e, he, hbe⟩ := List.any_eq_true.mp hcontra
      exact hok e he (of_decide_eq_true hbe)
    rfl
  · unfold findAssetPaths
    rw [findAssetSegPaths_none_eq]
    rfl

theorem claim5_witness :
    findAssetPaths docTwoTargets (some "T") =
      some ((((visitAnn docTwoTargets).filter
        fun e => e.2 = RefInfo.strTarget "T").map Prod.fst).map renderPath) ∧
    findAssetPaths docTwoTargets none =
      some (((visitAnn docTwoTargets).map Prod.fst).map renderPath) :=
  claim5_locator docTwoTargets "T" (by decide) (by decide)

theorem claim5_counterexample :
    findAssetPaths docBadRef (some "t") = none ∧
    refInfoOf (.obj (.cons "_type" (.str "reference") (.cons "_ref" (.num 7) .nil))) =
      some RefInfo.badTarget ∧
    stripDrafts "drafts.t" = "t" := by
  refine ⟨?_, by decide, by decide⟩
  unfold findAssetPaths
  rw [findAssetSegPaths_eq_visit]
  decide

/-- The batch the planner generates for a document whose only match is
the bare top-level path "asset". -/
def topAssetOps (i t lib inst cont : String) : List PatchOperation :=
  [⟨some i, "asset", refValue t, gdrValue (mlToken lib inst)⟩,
   ⟨some i, "asset", refValue "", gdrValue (mlToken lib cont)⟩]

/-- C1 (amended): the planner emits the operations in pairs, one pair
per located path, the first member at the located asset path and the
second at that path with a trailing ".asset" rewritten to ".media";
whenever the located path has a parent the second member is the
sibling media path, while for a bare top-level "asset" match the
second member targets "asset" itself again. -/
theorem claim1_pairing (doc : SValue) (va : VideoAsset) (lib inst cont : String)
    (ps : List (List Seg)) (h : findAssetSegPaths doc (some va._id) = some ps) :
    ∃ ops, generatePatchOperations doc va lib inst cont = some ops ∧
      ops = (ps.flatMap fun p =>
        [{ documentId := docIdOf doc, path := renderPath p,
           oldReference := refValue va._id,
           newReference := gdrValue (mlToken lib inst) },
         { documentId := docIdOf doc, path := replaceMediaSuffix (renderPath p),
           oldReference := refValue "",
           newReference := gdrValue (mlToken lib cont) }]) ∧
      ∀ p ∈ ps, ∃ q', p = q' ++ [Seg.field "asset"] ∧
        (q' = [] → replaceMediaSuffix (renderPath p) = renderPath p) ∧
        (q' ≠ [] →
          replaceMediaSuffix (renderPath p) = renderPath (q' ++ [Seg.field "media"])) := by
  refine ⟨_, generatePatchOperations_eq doc va lib inst cont ps h, rfl, ?_⟩
  intro p hp
  obtain ⟨q', hq'⟩ := findAssetSegPaths_shape doc va._id ps h p hp
  refine ⟨q', hq', ?_, ?_⟩
  · intro h0
    rw [hq', h0]
    decide
  · intro hne
    rw [hq', replaceMediaSuffix_render q']
    have hlen : ¬((q' ++ [Seg.field "asset"]).length ≤ 1) := by
      cases q' with
      | nil => exact absurd rfl hne
      | cons s q'' => simp
    rw [mediaSegPath, if_neg hlen, List.dropLast_concat]

theorem claim1_witness :
    ∃ ops, generatePatchOperations docNested vaW "L" "I" "C" = some ops ∧
      ops = ([[Seg.field "video", Seg.field "asset"]].flatMap fun p =>
        [{ documentId := docIdOf docNested, path := renderPath p,
           oldReference := refValue vaW._id,
           newReference := gdrValue (mlToken "L" "I") },
         { documentId := docIdOf docNested, path := replaceMediaSuffix (renderPath p),
           oldReference := refValue "",
           newReference := gdrValue (mlToken "L" "C") }]) ∧
      ∀ p ∈ [[Seg.field "video", Seg.field "asset"]],
        ∃ q', p = q' ++ [Seg.field "asset"] ∧
          (q' = [] → replaceMediaSuffix (renderPath p) = renderPath p) ∧
          (q' ≠ [] →
            replaceMediaSuffix (renderPath p) = renderPath (q' ++ [Seg.field "media"])) :=
  claim1_pairing docNested vaW "L" "I" "C" [[Seg.field "video", Seg.field "asset"]]
    (by rw [findAssetSegPaths_eq_visit]; decide)

theorem claim1_counterexample :
    generatePatchOperations (docTopAsset "dA" "vidA") ⟨"vidA", none, none, none, none⟩
        "lib" "inst" "cont" = some (topAssetOps "dA" "vidA" "lib" "inst" "cont") ∧
    ((topAssetOps "dA" "vidA" "lib" "inst" "cont").filter
      fun op => op.path = "asset").length = 2 ∧
    ((topAssetOps "dA" "vidA" "lib" "inst" "cont").filter
      fun op => op.path = "media").length = 0 := by
  refine ⟨?_, by decide, by decide⟩
  have h := generatePatchOperations_eq (docTopAsset "dA" "vidA")
    ⟨"vidA", none, none, none, none⟩ "lib" "inst" "cont" [[Seg.field "asset"]]
    (by rw [findAssetSegPaths_eq_visit]; decide)
  exact h.trans (by decide)

/-- C4 (amended): per located path the planner emits exactly two
operations, the first replacing the asset reference by a weak global
reference with token media-library:libraryId:instanceId, the second
targeting the path with a trailing ".asset" rewritten to ".media" (the
sibling media path whenever the located path has a parent, the same
"asset" path for a bare top-level match) with token
media-library:libraryId:containerId; zero located paths give the empty
batch without error. -/
theorem claim4_planner (doc : SValue) (va : VideoAsset) (lib inst cont : String)
    (ps : List (List Seg)) (h : findAssetSegPaths doc (some va._id) = some ps) :
    ∃ ops, generatePatchOperations doc va lib inst cont = some ops ∧
      ops.length = 2 * ps.length ∧
      (ps = [] → ops = []) ∧
      ∀ p ∈ ps,
        (⟨docIdOf doc, renderPath p, refValue va._id,
          gdrValue ("media-library:" ++ lib ++ ":" ++ inst)⟩ : PatchOperation) ∈ ops ∧
        (⟨docIdOf doc, replaceMediaSuffix (renderPath p), refValue "",
          gdrValue ("media-library:" ++ lib ++ ":" ++ cont)⟩ : PatchOperation) ∈ ops := by
  refine ⟨_, generatePatchOperations_eq doc va lib inst cont ps h, ?_, ?_, ?_⟩
  · exact flatMap_pairs_length _ _ ps
  · intro hps
    rw [hps]
    rfl
  · intro p hp
    constructor
    · exact List.mem_flatMap.mpr ⟨p, hp, by simp [mlToken]⟩
    · exact List.mem_flatMap.mpr ⟨p, hp, by simp [mlToken]⟩

theorem claim4_witness :
    ∃ ops, generatePatchOperations docNested vaW "L2" "I2" "C2" = some ops ∧
      ops.length = 2 * ([[Seg.field "video", Seg.field "asset"]] : List (List Seg)).length ∧
      (([[Seg.field "video", Seg.field "asset"]] : List (List Seg)) = [] → ops = []) ∧
      ∀ p ∈ ([[Seg.field "video", Seg.field "asset"]] : List (List Seg)),
        (⟨docIdOf docNested, renderPath p, refValue vaW._id,
          gdrValue ("media-library:" ++ "L2" ++ ":" ++ "I2")⟩ : PatchOperation) ∈ ops ∧
        (⟨docIdOf docNested, replaceMediaSuffix (renderPath p), refValue "",
          gdrValue ("media-library:" ++ "L2" ++ ":" ++ "C2")⟩ : PatchOperation) ∈ ops :=
  claim4_planner docNested vaW "L2" "I2" "C2" [[Seg.field "video", Seg.field "asset"]]
    (by rw [findAssetSegPaths_eq_visit]; decide)

theorem claim4_counterexample :
    generatePatchOperations (docTopAsset "dB" "vidB") ⟨"vidB", none, none, none, none⟩
        "lb" "ib" "cb" = some (topAssetOps "dB" "vidB" "lb" "ib" "cb") ∧
    (topAssetOps "dB" "vidB" "lb" "ib" "cb").length = 2 ∧
    ((topAssetOps "dB" "vidB" "lb" "ib" "cb").filter
      fun op => strContains op.path "media").length = 0 := by
  refine ⟨?_, by decide, by decide⟩
  have h := generatePatchOperations_eq (docTopAsset "dB" "vidB")
    ⟨"vidB", none, none, none, none⟩ "lb" "ib" "cb" [[Seg.field "asset"]]
    (by rw [findAssetSegPaths_eq_visit]; decide)
  exact h.trans (by decide)

/-- A registry with no entries at all. -/
def registry0 : String → String → Option MediaLibraryAsset := fun _ _ => none

/-- A record with no media field. -/
def vaNoMedia : VideoAsset := ⟨"v1", none, none, none, none⟩

/-- A record whose media reference carries a malformed two-part token. -/
def vaBadMedia : VideoAsset := ⟨"v2", some (refTo "media-library:x"), none, none, none⟩

/-- A record whose media reference parses but resolves nowhere in
registry0. -/
def vaL : VideoAsset := ⟨"vL", some (refTo "media-library:a:b"), none, none, none⟩

/-- C2 (amended): the resolver returns null for every failure, so the
result value alone does not separate the three failure modes; the
caller recovers the mode by re-inspecting the record, and that
re-derived classification characterises the three modes exactly:
no-mapping when the record has no truthy media value, malformed token
when re-parsing fails, and otherwise (given the resolver failed) a
registry lookup that found no instance or no container. -/
theorem claim2_resolver (registry : String → String → Option MediaLibraryAsset)
    (va : VideoAsset) (h : getMediaLibraryAssetInfo registry va = none) :
    getMediaLibraryAssetInfo registry va = none ∧
    (classifyFailure va = SkipReason.noMediaField ↔
      va.media = none ∨ ∃ m, va.media = some m ∧ jsTruthy m = false) ∧
    (classifyFailure va = SkipReason.invalidFormat ↔
      ∃ m, va.media = some m ∧ jsTruthy m = true ∧ parseMediaReference m = none) ∧
    (classifyFailure va = SkipReason.lookupFailed ↔
      ∃ m lib inst, va.media = some m ∧ jsTruthy m = true ∧
        parseMediaReference m = some (lib, inst) ∧
        (registry lib inst = none ∨
          ∃ r, registry lib inst = some r ∧ r.container = none)) := by
  refine ⟨h, ?_⟩
  cases hm : va.media with
  | none =>
    refine ⟨by simp [classifyFailure, hm], by simp [classifyFailure, hm], ?_⟩
    simp [classifyFailure, hm]
  | some m =>
    cases htr : jsTruthy m with
    | false =>
      refine ⟨by simp [classifyFailure, hm, htr], ?_, ?_⟩
      · simp [classifyFailure, hm, htr]
      · simp [classifyFailure, hm, htr]
    | true =>
      cases hp : parseMediaReference m with
      | none =>
        refine ⟨by simp [classifyFailure, hm, htr, hp], ?_, ?_⟩
        · simp [classifyFailure, hm, htr, hp]
        · simp [classifyFailure, hm, htr, hp]
      | some pr =>
        obtain ⟨lib, inst⟩ := pr
        refine ⟨by simp [classifyFailure, hm, htr, hp], ?_, ?_⟩
        · simp [classifyFailure, hm, htr, hp]
        · constructor
          · intro _
            refine ⟨m, lib, inst, rfl, htr, hp, ?_⟩
            cases hr : registry lib inst with
            | none => exact Or.inl rfl
            | some r =>
              cases hc : r.container with
              | none => exact Or.inr ⟨r, rfl, hc⟩
              | some c =>
                exfalso
                unfold getMediaLibraryAssetInfo at h
                rw [hm] at h
                simp [htr, hp, hr, hc] at h
          · intro _
            simp [classifyFailure, hm, htr, hp]

theorem claim2_witness :
    getMediaLibraryAssetInfo registry0 vaL = none ∧
    (classifyFailure vaL = SkipReason.noMediaField ↔
      vaL.media = none ∨ ∃ m, vaL.media = some m ∧ jsTruthy m = false) ∧
    (classifyFailure vaL = SkipReason.invalidFormat ↔
      ∃ m, vaL.media = some m ∧ jsTruthy m = true ∧ parseMediaReference m = none) ∧
    (classifyFailure vaL = SkipReason.lookupFailed ↔
      ∃ m lib inst, vaL.media = some m ∧ jsTruthy m = true ∧
        parseMediaReference m = some (lib, inst) ∧
        (registry0 lib inst = none ∨
          ∃ r, registry0 lib inst = some r ∧ r.container = none)) :=
  claim2_resolver registry0 vaL (by decide)

theorem claim2_counterexample :
    getMediaLibraryAssetInfo registry0 vaNoMedia =
      getMediaLibraryAssetInfo registry0 vaBadMedia ∧
    getMediaLibraryAssetInfo registry0 vaNoMedia = none ∧
    classifyFailure vaNoMedia = SkipReason.noMediaField ∧
    classifyFailure vaBadMedia = SkipReason.invalidFormat ∧
    SkipReason.noMediaField ≠ SkipReason.invalidFormat := by
  refine ⟨by decide, by decide, by decide, by decide, by decide⟩

/-- C3 (idempotence): apply to the document the set instructions of
every generated operation (its path and new weak global reference);
re-running the Locator with the same asset filter over the patched
document yields zero paths, so the Planner emits the empty batch on
the second pass. -/
theorem claim3_idempotent (doc : SValue) (va : VideoAsset) (lib inst cont : String)
    (ps : List (List Seg)) (h : findAssetSegPaths doc (some va._id) = some ps) :
    findAssetPaths (applySets doc (migratePairs ps lib inst cont)) (some va._id) =
      some [] ∧
    generatePatchOperations (applySets doc (migratePairs ps lib inst cont))
      va lib inst cont = some [] ∧
    ∀ ops, generatePatchOperations doc va lib inst cont = some ops →
      ops.map (fun op => (op.path, op.newReference)) =
        (migratePairs ps lib inst cont).map fun pr => (renderPath pr.1, pr.2) := by
  have hclear := migrate_clears doc va._id lib inst cont ps h
  refine ⟨?_, ?_, ?_⟩
  · unfold findAssetPaths
    rw [hclear]
    rfl
  · rw [generatePatchOperations_eq _ va lib inst cont [] hclear]
    rfl
  · intro ops hops
    rw [generatePatchOperations_eq doc va lib inst cont ps h] at hops
    have heq := Option.some.inj hops
    subst heq
    exact migratePairs_render (docIdOf doc) va._id ps lib inst cont
      (findAssetSegPaths_shape doc va._id ps h)

theorem claim3_witness :
    findAssetPaths (applySets docNested
      (migratePairs [[Seg.field "video", Seg.field "asset"]] "L3" "I3" "C3"))
      (some vaW._id) = some [] ∧
    generatePatchOperations (applySets docNested
      (migratePairs [[Seg.field "video", Seg.field "asset"]] "L3" "I3" "C3"))
      vaW "L3" "I3" "C3" = some [] ∧
    ∀ ops, generatePatchOperations docNested vaW "L3" "I3" "C3" = some ops →
      ops.map (fun op => (op.path, op.newReference)) =
        (migratePairs [[Seg.field "video", Seg.field "asset"]] "L3" "I3" "C3").map
          fun pr => (renderPath pr.1, pr.2) :=
  claim3_idempotent docNested vaW "L3" "I3" "C3"
    [[Seg.field "video", Seg.field "asset"]]
    (by rw [findAssetSegPaths_eq_visit]; decide)

/-- C9 (amended): the reported totals are the length of the batch and
the number of distinct target document ids; every generated operation
path contains "asset" or "media" as a substring, and the asset-kind
and media-kind counts (substring classification of the source) sum to
the total plus the number of operations whose path contains both
substrings, so the two kinds overlap rather than partition the batch. -/
theorem claim9_summary (doc : SValue) (va : VideoAsset) (lib inst cont : String)
    (ps : List (List Seg)) (ops : List PatchOperation)
    (h : findAssetSegPaths doc (some va._id) = some ps)
    (hops : generatePatchOperations doc va lib inst cont = some ops) :
    totalOperations ops = ops.length ∧
    uniqueDocuments ops = (ops.map fun op => op.documentId).toFinset.card ∧
    (∀ op ∈ ops, strContains op.path "asset" = true ∨ strContains op.path "media" = true) ∧
    assetOpsCount ops + mediaOpsCount ops =
      totalOperations ops +
        (ops.filter fun op =>
          strContains op.path "asset" && strContains op.path "media").length := by
  have hall : ∀ op ∈ ops,
      strContains op.path "asset" = true ∨ strContains op.path "media" = true := by
    intro op hop
    rw [generatePatchOperations_eq doc va lib inst cont ps h] at hops
    have heq := Option.some.inj hops
    subst heq
    obtain ⟨p, hp, hmem⟩ := List.mem_flatMap.mp hop
    obtain ⟨q', hq'⟩ := findAssetSegPaths_shape doc va._id ps h p hp
    rcases List.mem_cons.mp hmem with h1 | h1
    · left
      rw [h1]
      show strContains (renderPath p) "asset" = true
      rw [hq']
      exact renderPath_asset_contains q'
    · rcases List.mem_cons.mp h1 with h2 | h2
      · rw [h2]
        show strContains (replaceMediaSuffix (renderPath p)) "asset" = true ∨
          strContains (replaceMediaSuffix (renderPath p)) "media" = true
        rw [hq']
        exact mediaSuffix_contains q'
      · exact absurd h2 (List.not_mem_nil op)
  refine ⟨rfl, ?_, hall, ?_⟩
  · unfold uniqueDocuments
    rw [List.card_toFinset]
  · have hfeq : (ops.filter fun op =>
        strContains op.path "asset" || strContains op.path "media") = ops := by
      rw [List.filter_eq_self]
      intro op hop
      rcases hall op hop with h1 | h1 <;> simp [h1]
    have hie := length_filter_or_and (fun op => strContains op.path "asset")
      (fun op => strContains op.path "media") ops
    unfold assetOpsCount mediaOpsCount totalOperations
    rw [hie, hfeq]

/-- The batch generated for docNested at library ids L9, I9, C9. -/
def c9wOps : List PatchOperation :=
  [⟨some "dW", "video.asset", refValue "vidW", gdrValue (mlToken "L9" "I9")⟩,
   ⟨some "dW", "video.media", refValue "", gdrValue (mlToken "L9" "C9")⟩]

theorem claim9_witness :
    totalOperations c9wOps = c9wOps.length ∧
    uniqueDocuments c9wOps = (c9wOps.map fun op => op.documentId).toFinset.card ∧
    (∀ op ∈ c9wOps,
      strContains op.path "asset" = true ∨ strContains op.path "media" = true) ∧
    assetOpsCount c9wOps + mediaOpsCount c9wOps =
      totalOperations c9wOps +
        (c9wOps.filter fun op =>
          strContains op.path "asset" && strContains op.path "media").length :=
  claim9_summary docNested vaW "L9" "I9" "C9" [[Seg.field "video", Seg.field "asset"]]
    c9wOps
    (by rw [findAssetSegPaths_eq_visit]; decide)
    (by
      rw [generatePatchOperations_eq docNested vaW "L9" "I9" "C9"
        [[Seg.field "video", Seg.field "asset"]]
        (by rw [findAssetSegPaths_eq_visit]; decide)]
      decide)

/-- A document whose asset reference sits under the field "media". -/
def docMediaNest : SValue :=
  .obj (.cons "_id" (.str "dC")
    (.cons "media" (.obj (.cons "asset" (refTo "vidC") .nil)) .nil))

/-- The batch generated for docMediaNest. -/
def c9ops : List PatchOperation :=
  [⟨some "dC", "media.asset", refValue "vidC", gdrValue (mlToken "l" "i")⟩,
   ⟨some "dC", "media.media", refValue "", gdrValue (mlToken "l" "c")⟩]

theorem claim9_counterexample :
    generatePatchOperations docMediaNest ⟨"vidC", none, none, none, none⟩ "l" "i" "c" =
      some c9ops ∧
    totalOperations c9ops = 2 ∧
    assetOpsCount c9ops = 1 ∧
    mediaOpsCount c9ops = 2 ∧
    assetOpsCount c9ops + mediaOpsCount c9ops ≠ totalOperations c9ops := by
  refine ⟨?_, by decide, by decide, by decide, by decide⟩
  have h := generatePatchOperations_eq docMediaNest ⟨"vidC", none, none, none, none⟩
    "l" "i" "c" [[Seg.field "media", Seg.field "asset"]]
    (by rw [findAssetSegPaths_eq_visit]; decide)
  exact h.trans (by decide)
